import Mathlib

/-!
Shallow embedding of the CHIP-8 static recompiler and its runtime
(instruction decoder, control-flow analyzer, runtime instruction helpers,
computed-jump dispatch table, and ROM-name derivation), together with
theorems checking the specification's claims against the code.

Machine integers (`uint8_t`, `uint16_t`, `size_t`) are modelled as `Nat`,
with an explicit `% 2^w` wherever the C code can overflow or truncates on
assignment.  C arrays become functions; array accesses that the C code
performs without a bounds check or mask are modelled through checked
accessors returning `Option`, whose `none` branch stands for the
out-of-bounds (undefined-behaviour) case.
-/

namespace Chip8Recomp

/-! ## Decoder (recompiler/src/decoder.cpp) -/

/-- Instruction categories, one constructor per enumerator of
`InstructionType` in decoder.h. -/
inductive InstructionType where
  | SYS | CLS | RET
  | JP | CALL | JP_V0
  | SE_VX_NN | SNE_VX_NN | SE_VX_VY | SNE_VX_VY | SKP | SKNP
  | LD_VX_NN | LD_VX_VY | LD_I_NNN | LD_VX_DT | LD_VX_K | LD_DT_VX
  | LD_ST_VX | LD_F_VX | LD_B_VX | LD_I_VX | LD_VX_I
  | ADD_VX_NN | ADD_VX_VY | SUB_VX_VY | SUBN_VX_VY | ADD_I_VX
  | OR_VX_VY | AND_VX_VY | XOR_VX_VY | SHR_VX | SHL_VX
  | RND | DRW
  | UNKNOWN
  deriving DecidableEq

/-- One decoded instruction record (struct `Instruction` in decoder.h). -/
structure Instruction where
  address : Nat
  opcode : Nat
  type : InstructionType
  x : Nat
  y : Nat
  n : Nat
  nn : Nat
  nnn : Nat
  is_jump : Bool
  is_branch : Bool
  is_call : Bool
  is_return : Bool
  is_terminator : Bool
  deriving DecidableEq

instance : Inhabited Instruction :=
  ⟨{ address := 0, opcode := 0, type := .UNKNOWN, x := 0, y := 0, n := 0,
     nn := 0, nnn := 0, is_jump := false, is_branch := false, is_call := false,
     is_return := false, is_terminator := false }⟩

/-- Build an `Instruction`.  The C++ `Instruction instr{}` zero-initialises
every flag; `decode_opcode` then sets the type and the flow flags of the one
case that matches, so each case is a record with explicit flags here. -/
def mkInstr (address opcode x y n nn nnn : Nat) (t : InstructionType)
    (jmp br cal ret term : Bool) : Instruction :=
  { address := address, opcode := opcode, type := t, x := x, y := y, n := n,
    nn := nn, nnn := nnn, is_jump := jmp, is_branch := br, is_call := cal,
    is_return := ret, is_terminator := term }

/-- `decode_opcode` from decoder.cpp: extract the operand fields, then
dispatch on the top nibble and sub-fields. -/
def decode_opcode (opcode address : Nat) : Instruction :=
  let x := (opcode &&& 0x0F00) >>> 8
  let y := (opcode &&& 0x00F0) >>> 4
  let n := opcode &&& 0x000F
  let nn := opcode &&& 0x00FF
  let nnn := opcode &&& 0x0FFF
  let op := (opcode &&& 0xF000) >>> 12
  if op = 0x0 then
    if opcode = 0x00E0 then mkInstr address opcode x y n nn nnn .CLS false false false false false
    else if opcode = 0x00EE then mkInstr address opcode x y n nn nnn .RET false false false true true
    else mkInstr address opcode x y n nn nnn .SYS false false false false false
  else if op = 0x1 then mkInstr address opcode x y n nn nnn .JP true false false false true
  else if op = 0x2 then mkInstr address opcode x y n nn nnn .CALL false false true false false
  else if op = 0x3 then mkInstr address opcode x y n nn nnn .SE_VX_NN false true false false false
  else if op = 0x4 then mkInstr address opcode x y n nn nnn .SNE_VX_NN false true false false false
  else if op = 0x5 then
    (if n = 0 then mkInstr address opcode x y n nn nnn .SE_VX_VY false true false false false
     else mkInstr address opcode x y n nn nnn .UNKNOWN false false false false false)
  else if op = 0x6 then mkInstr address opcode x y n nn nnn .LD_VX_NN false false false false false
  else if op = 0x7 then mkInstr address opcode x y n nn nnn .ADD_VX_NN false false false false false
  else if op = 0x8 then
    (if n = 0x0 then mkInstr address opcode x y n nn nnn .LD_VX_VY false false false false false
     else if n = 0x1 then mkInstr address opcode x y n nn nnn .OR_VX_VY false false false false false
     else if n = 0x2 then mkInstr address opcode x y n nn nnn .AND_VX_VY false false false false false
     else if n = 0x3 then mkInstr address opcode x y n nn nnn .XOR_VX_VY false false false false false
     else if n = 0x4 then mkInstr address opcode x y n nn nnn .ADD_VX_VY false false false false false
     else if n = 0x5 then mkInstr address opcode x y n nn nnn .SUB_VX_VY false false false false false
     else if n = 0x6 then mkInstr address opcode x y n nn nnn .SHR_VX false false false false false
     else if n = 0x7 then mkInstr address opcode x y n nn nnn .SUBN_VX_VY false false false false false
     else if n = 0xE then mkInstr address opcode x y n nn nnn .SHL_VX false false false false false
     else mkInstr address opcode x y n nn nnn .UNKNOWN false false false false false)
  else if op = 0x9 then
    (if n = 0 then mkInstr address opcode x y n nn nnn .SNE_VX_VY false true false false false
     else mkInstr address opcode x y n nn nnn .UNKNOWN false false false false false)
  else if op = 0xA then mkInstr address opcode x y n nn nnn .LD_I_NNN false false false false false
  else if op = 0xB then mkInstr address opcode x y n nn nnn .JP_V0 true false false false true
  else if op = 0xC then mkInstr address opcode x y n nn nnn .RND false false false false false
  else if op = 0xD then mkInstr address opcode x y n nn nnn .DRW false false false false false
  else if op = 0xE then
    (if nn = 0x9E then mkInstr address opcode x y n nn nnn .SKP false true false false false
     else if nn = 0xA1 then mkInstr address opcode x y n nn nnn .SKNP false true false false false
     else mkInstr address opcode x y n nn nnn .UNKNOWN false false false false false)
  else if op = 0xF then
    (if nn = 0x07 then mkInstr address opcode x y n nn nnn .LD_VX_DT false false false false false
     else if nn = 0x0A then mkInstr address opcode x y n nn nnn .LD_VX_K false false false false false
     else if nn = 0x15 then mkInstr address opcode x y n nn nnn .LD_DT_VX false false false false false
     else if nn = 0x18 then mkInstr address opcode x y n nn nnn .LD_ST_VX false false false false false
     else if nn = 0x1E then mkInstr address opcode x y n nn nnn .ADD_I_VX false false false false false
     else if nn = 0x29 then mkInstr address opcode x y n nn nnn .LD_F_VX false false false false false
     else if nn = 0x33 then mkInstr address opcode x y n nn nnn .LD_B_VX false false false false false
     else if nn = 0x55 then mkInstr address opcode x y n nn nnn .LD_I_VX false false false false false
     else if nn = 0x65 then mkInstr address opcode x y n nn nnn .LD_VX_I false false false false false
     else mkInstr address opcode x y n nn nnn .UNKNOWN false false false false false)
  else mkInstr address opcode x y n nn nnn .UNKNOWN false false false false false

/-- `decode_rom` from decoder.cpp: the index loop
`for (i = 0; i + 1 < rom_size; i += 2)` written structurally, consuming two
bytes per step.  The address argument of `decode_opcode` is a `uint16_t`,
hence the `% 65536`. -/
def decode_rom : List Nat → Nat → List Instruction
  | b0 :: b1 :: rest, base =>
      decode_opcode ((b0 <<< 8) ||| b1) (base % 65536) :: decode_rom rest (base + 2)
  | _, _ => []

/-- The six conditional-skip instruction kinds (3XNN, 4XNN, 5XY0, 9XY0,
EX9E, EXA1). -/
def isSkipKind : InstructionType → Bool
  | .SE_VX_NN | .SNE_VX_NN | .SE_VX_VY | .SNE_VX_VY | .SKP | .SKNP => true
  | _ => false

/-- Flow-flag consistency of one instruction record:
`is_terminator ⇔ is_jump ∨ is_return`, and `is_branch` exactly on the six
conditional-skip kinds. -/
def flagConsistent (d : Instruction) : Prop :=
  d.is_terminator = (d.is_jump || d.is_return) ∧ d.is_branch = isSkipKind d.type

/-! ## Runtime context (runtime/include/chip8rt/context.h, context.c) -/

/-- CHIP-8 machine context (struct `Chip8Context`).  Arrays are functions
from the index; `memory` has 4096 byte cells, `stack` 16, `display` 2048.
The opaque `platform_data` pointer is omitted. -/
structure Chip8Context where
  V : Fin 16 → Nat
  I : Nat
  PC : Nat
  SP : Nat
  delay_timer : Nat
  sound_timer : Nat
  memory : Nat → Nat
  stack : Nat → Nat
  display : Nat → Nat
  display_dirty : Bool
  keys : Fin 16 → Bool
  keys_prev : Fin 16 → Bool
  last_key_released : Int
  running : Bool
  waiting_for_key : Bool
  key_wait_register : Nat
  cycles_remaining : Int
  resume_pc : Nat
  should_yield : Bool
  instruction_count : Nat
  frame_count : Nat

/-- The built-in 4x5 font sprites (`CHIP8_FONT` in context.c), 80 bytes. -/
def CHIP8_FONT : List Nat :=
  [0xF0, 0x90, 0x90, 0x90, 0xF0,
   0x20, 0x60, 0x20, 0x20, 0x70,
   0xF0, 0x10, 0xF0, 0x80, 0xF0,
   0xF0, 0x10, 0xF0, 0x10, 0xF0,
   0x90, 0x90, 0xF0, 0x10, 0x10,
   0xF0, 0x80, 0xF0, 0x10, 0xF0,
   0xF0, 0x80, 0xF0, 0x90, 0xF0,
   0xF0, 0x10, 0x20, 0x40, 0x40,
   0xF0, 0x90, 0xF0, 0x90, 0xF0,
   0xF0, 0x90, 0xF0, 0x10, 0xF0,
   0xF0, 0x90, 0xF0, 0x90, 0x90,
   0xE0, 0x90, 0xE0, 0x90, 0xE0,
   0xF0, 0x80, 0x80, 0x80, 0xF0,
   0xE0, 0x90, 0x90, 0x90, 0xE0,
   0xF0, 0x80, 0xF0, 0x80, 0xF0,
   0xF0, 0x80, 0xF0, 0x80, 0x80]

/-- `chip8_context_create`: `calloc` zero-initialises every field, the font
is copied to `0x050`, then `PC = 0x200`, `running = true`,
`last_key_released = -1`. -/
def chip8_context_create : Chip8Context where
  V := fun _ => 0
  I := 0
  PC := 0x200
  SP := 0
  delay_timer := 0
  sound_timer := 0
  memory := fun a => if 0x50 ≤ a ∧ a < 0x50 + 80 then CHIP8_FONT.getD (a - 0x50) 0 else 0
  stack := fun _ => 0
  display := fun _ => 0
  display_dirty := false
  keys := fun _ => false
  keys_prev := fun _ => false
  last_key_released := -1
  running := true
  waiting_for_key := false
  key_wait_register := 0
  cycles_remaining := 0
  resume_pc := 0
  should_yield := false
  instruction_count := 0
  frame_count := 0

/-- `chip8_context_reset` from context.c.  Exactly the fields the C code
writes are replaced; in particular `memory`, `keys_prev`,
`cycles_remaining`, `resume_pc` and `should_yield` are untouched. -/
def chip8_context_reset (ctx : Chip8Context) : Chip8Context :=
  { ctx with
    V := fun _ => 0, I := 0, PC := 0x200, SP := 0,
    delay_timer := 0, sound_timer := 0,
    stack := fun _ => 0,
    display := fun _ => 0, display_dirty := true,
    keys := fun _ => false, last_key_released := -1,
    running := true, waiting_for_key := false, key_wait_register := 0,
    instruction_count := 0, frame_count := 0 }

/-- `chip8_context_load_program` from context.c: fails (returns `false`,
modelled `none`) if the program does not fit below `CHIP8_MEMORY_SIZE`,
otherwise copies the bytes to `0x200`. -/
def chip8_context_load_program (ctx : Chip8Context) (program : List Nat) :
    Option Chip8Context :=
  if 4096 - 0x200 < program.length then none
  else some { ctx with
    memory := fun a =>
      if 0x200 ≤ a ∧ a < 0x200 + program.length then program.getD (a - 0x200) 0
      else ctx.memory a }

/-! ## ALU helper macros (runtime/include/chip8rt/instructions.h) -/

/-- `CHIP8_ADD_VX_VY` (8XY4): 16-bit sum, low byte stored to Vx, then VF set
to the carry — VF written last. -/
def CHIP8_ADD_VX_VY (ctx : Chip8Context) (x y : Fin 16) : Chip8Context :=
  let sum := ctx.V x + ctx.V y
  let V1 := Function.update ctx.V x (sum % 256)
  { ctx with V := Function.update V1 15 (if 255 < sum then 1 else 0) }

/-- `CHIP8_SUB_VX_VY` (8XY5): inputs saved, `Vx - Vy` (wrapping uint8)
stored, then VF set to NOT-borrow — VF written last. -/
def CHIP8_SUB_VX_VY (ctx : Chip8Context) (x y : Fin 16) : Chip8Context :=
  let vx := ctx.V x
  let vy := ctx.V y
  let V1 := Function.update ctx.V x ((vx + 256 - vy) % 256)
  { ctx with V := Function.update V1 15 (if vy ≤ vx then 1 else 0) }

/-- `CHIP8_SUBN_VX_VY` (8XY7): `Vy - Vx` stored, then VF set to NOT-borrow
— VF written last. -/
def CHIP8_SUBN_VX_VY (ctx : Chip8Context) (x y : Fin 16) : Chip8Context :=
  let vx := ctx.V x
  let vy := ctx.V y
  let V1 := Function.update ctx.V x ((vy + 256 - vx) % 256)
  { ctx with V := Function.update V1 15 (if vx ≤ vy then 1 else 0) }

/-- `CHIP8_SHR_VX` (8XY6, modern behaviour): `Vx >> 1` stored, then VF set
to the ejected low bit — VF written last. -/
def CHIP8_SHR_VX (ctx : Chip8Context) (x : Fin 16) : Chip8Context :=
  let vx := ctx.V x
  let V1 := Function.update ctx.V x (vx >>> 1)
  { ctx with V := Function.update V1 15 (vx &&& 0x01) }

/-- `CHIP8_SHR_VX_VY` (8XY6, original behaviour): `Vy >> 1` stored to Vx,
then VF set to the low bit of Vy — VF written last. -/
def CHIP8_SHR_VX_VY (ctx : Chip8Context) (x y : Fin 16) : Chip8Context :=
  let vy := ctx.V y
  let V1 := Function.update ctx.V x (vy >>> 1)
  { ctx with V := Function.update V1 15 (vy &&& 0x01) }

/-- `CHIP8_SHL_VX` (8XYE, modern behaviour): `Vx << 1` (truncated to uint8)
stored, then VF set to the ejected high bit — VF written last. -/
def CHIP8_SHL_VX (ctx : Chip8Context) (x : Fin 16) : Chip8Context :=
  let vx := ctx.V x
  let V1 := Function.update ctx.V x ((vx <<< 1) % 256)
  { ctx with V := Function.update V1 15 ((vx &&& 0x80) >>> 7) }

/-- `CHIP8_SHL_VX_VY` (8XYE, original behaviour): `Vy << 1` stored to Vx,
then VF set to the high bit of Vy — VF written last. -/
def CHIP8_SHL_VX_VY (ctx : Chip8Context) (x y : Fin 16) : Chip8Context :=
  let vy := ctx.V y
  let V1 := Function.update ctx.V x ((vy <<< 1) % 256)
  { ctx with V := Function.update V1 15 ((vy &&& 0x80) >>> 7) }

/-! ## Memory helpers (instructions.h / instructions.c) -/

/-- Checked read of `ctx->memory[a]`.  The C helpers below index the
4096-byte array directly, without the 12-bit mask; an index `≥ 4096` is out
of bounds, modelled as `none`. -/
def readMem (ctx : Chip8Context) (a : Nat) : Option Nat :=
  if a < 4096 then some (ctx.memory a) else none

/-- Checked write of `ctx->memory[a]` (see `readMem`). -/
def writeMem (ctx : Chip8Context) (a v : Nat) : Option Chip8Context :=
  if a < 4096 then some { ctx with memory := Function.update ctx.memory a v }
  else none

/-- `chip8_read_byte` from instructions.h: the address is masked to 12 bits
before indexing, so this accessor can never go out of bounds. -/
def chip8_read_byte (ctx : Chip8Context) (addr : Nat) : Nat :=
  ctx.memory (addr &&& 0x0FFF)

/-- `chip8_write_byte` from instructions.h: masked store. -/
def chip8_write_byte (ctx : Chip8Context) (addr v : Nat) : Chip8Context :=
  { ctx with memory := Function.update ctx.memory (addr &&& 0x0FFF) v }

/-- `chip8_store_bcd` (FX33) from instructions.c: hundreds, tens, ones of
`V[x]` at `memory[I]`, `[I+1]`, `[I+2]` — unchecked indexing, three
sequential stores. -/
def chip8_store_bcd (ctx : Chip8Context) (x : Fin 16) : Option Chip8Context :=
  let value := ctx.V x
  match writeMem ctx ctx.I (value / 100) with
  | none => none
  | some c1 =>
      match writeMem c1 (c1.I + 1) (value / 10 % 10) with
      | none => none
      | some c2 => writeMem c2 (c2.I + 2) (value % 10)

/-- Loop body of `chip8_store_registers`:
`for (i = 0; i <= x; ++i) memory[I+i] = V[i]`.  The fuel argument counts
the remaining iterations (`x + 1 - i`), making the recursion structural. -/
def storeRegsLoop (x : Fin 16) : Nat → Nat → Chip8Context → Option Chip8Context
  | 0, _, ctx => some ctx
  | fuel + 1, i, ctx =>
      if h : i ≤ x.val then
        match writeMem ctx (ctx.I + i) (ctx.V ⟨i, Nat.lt_of_le_of_lt h x.isLt⟩) with
        | none => none
        | some c => storeRegsLoop x fuel (i + 1) c
      else some ctx

/-- `chip8_store_registers` (FX55) from instructions.c; when `increment_i`
is set, `I += x + 1` afterwards (uint16 addition). -/
def chip8_store_registers (ctx : Chip8Context) (x : Fin 16)
    (increment_i : Bool) : Option Chip8Context :=
  match storeRegsLoop x (x.val + 1) 0 ctx with
  | none => none
  | some c => some (if increment_i then { c with I := (c.I + x.val + 1) % 65536 } else c)

/-- Loop body of `chip8_load_registers`:
`for (i = 0; i <= x; ++i) V[i] = memory[I+i]`. -/
def loadRegsLoop (x : Fin 16) : Nat → Nat → Chip8Context → Option Chip8Context
  | 0, _, ctx => some ctx
  | fuel + 1, i, ctx =>
      if h : i ≤ x.val then
        match readMem ctx (ctx.I + i) with
        | none => none
        | some v =>
            loadRegsLoop x fuel (i + 1)
              { ctx with V := Function.update ctx.V ⟨i, Nat.lt_of_le_of_lt h x.isLt⟩ v }
      else some ctx

/-- `chip8_load_registers` (FX65) from instructions.c. -/
def chip8_load_registers (ctx : Chip8Context) (x : Fin 16)
    (increment_i : Bool) : Option Chip8Context :=
  match loadRegsLoop x (x.val + 1) 0 ctx with
  | none => none
  | some c => some (if increment_i then { c with I := (c.I + x.val + 1) % 65536 } else c)

/-! ## Sprite drawing (instructions.c, `chip8_draw_sprite`) -/

/-- Body of one column-loop iteration of `chip8_draw_sprite`: if the
sprite bit at `col` is set, record a collision in `VF` when the target
pixel is already on, then XOR the pixel. -/
def drawPixel (xx yy col spriteByte : Nat) (ctx : Chip8Context) : Chip8Context :=
  if spriteByte &&& (0x80 >>> col) ≠ 0 then
    let idx := yy * 64 + (xx + col)
    let ctx0 :=
      if ctx.display idx ≠ 0 then { ctx with V := Function.update ctx.V 15 1 }
      else ctx
    { ctx0 with display := Function.update ctx0.display idx (ctx0.display idx ^^^ 1) }
  else ctx

/-- Column loop of `chip8_draw_sprite`: eight pixels of one sprite row,
breaking at the right screen edge.  `fuel = 8 - col`. -/
def drawColsLoop (xx yy spriteByte : Nat) : Nat → Nat → Chip8Context → Chip8Context
  | 0, _, ctx => ctx
  | fuel + 1, col, ctx =>
      if 64 ≤ xx + col then ctx
      else drawColsLoop xx yy spriteByte fuel (col + 1) (drawPixel xx yy col spriteByte ctx)

/-- Row loop of `chip8_draw_sprite`: reads `memory[I + row]` (unchecked in
the C code — the read happens before the bottom-edge clip test), then clips
rows past the bottom of the screen.  `fuel = height - row`. -/
def drawRowsLoop (xx yy : Nat) : Nat → Nat → Chip8Context → Option Chip8Context
  | 0, _, ctx => some ctx
  | fuel + 1, row, ctx =>
      match readMem ctx (ctx.I + row) with
      | none => none
      | some spriteByte =>
          if 32 ≤ yy + row then some ctx
          else drawRowsLoop xx yy fuel (row + 1)
            (drawColsLoop xx (yy + row) spriteByte 8 0 ctx)

/-- `chip8_draw_sprite` (DXYN) from instructions.c: origin wraps
(`V[vx] % 64`, `V[vy] % 32`), VF is cleared, rows are drawn with clipping,
and `display_dirty` is set. -/
def chip8_draw_sprite (ctx : Chip8Context) (vx vy : Fin 16) (height : Nat) :
    Option Chip8Context :=
  let xx := ctx.V vx % 64
  let yy := ctx.V vy % 32
  let ctx0 := { ctx with V := Function.update ctx.V 15 0 }
  match drawRowsLoop xx yy height 0 ctx0 with
  | none => none
  | some c => some { c with display_dirty := true }

/-- The sprite bit that lands on display cell `i` and is actually drawn by
`chip8_draw_sprite` (row not clipped at the bottom, column not clipped at
the right): row `r` of the `n`-row sprite at `memory[iv + r]`, bit `c`. -/
def spriteDrawnAt (mem : Nat → Nat) (iv xx yy n i : Nat) : Prop :=
  ∃ r c, r < n ∧ yy + r < 32 ∧ c < 8 ∧ xx + c < 64
    ∧ mem (iv + r) &&& (0x80 >>> c) ≠ 0
    ∧ i = (yy + r) * 64 + (xx + c)

/-- Some drawn sprite bit lands on an already-set pixel of `disp`. -/
def spriteCollides (disp mem : Nat → Nat) (iv xx yy n : Nat) : Prop :=
  ∃ r c, r < n ∧ yy + r < 32 ∧ c < 8 ∧ xx + c < 64
    ∧ mem (iv + r) &&& (0x80 >>> c) ≠ 0
    ∧ disp ((yy + r) * 64 + (xx + c)) ≠ 0

/-! ## Dispatch table and computed jump (runtime.h, menu.c) -/

/-- `FUNC_TABLE_SIZE` from menu.c. -/
def FUNC_TABLE_SIZE : Nat := 4096

/-- The process-wide function lookup table `g_func_table`, zero (`none`)
initialised.  Function pointers are abstracted by the type `F`;
`none` models the NULL pointer. -/
def emptyFuncTable (F : Type) : Nat → Option F := fun _ => none

/-- `chip8_register_function` from menu.c: stores the pointer only when
`address < FUNC_TABLE_SIZE`; otherwise it silently does nothing. -/
def chip8_register_function {F : Type} (t : Nat → Option F) (address : Nat)
    (f : F) : Nat → Option F :=
  if address < FUNC_TABLE_SIZE then Function.update t address (some f) else t

/-- `chip8_lookup_function` from menu.c: returns the stored pointer when
`address < FUNC_TABLE_SIZE`, NULL otherwise. -/
def chip8_lookup_function {F : Type} (t : Nat → Option F) (address : Nat) :
    Option F :=
  if address < FUNC_TABLE_SIZE then t address else none

/-- `chip8_clear_function_table` from menu.c: `memset` the table to zero. -/
def chip8_clear_function_table {F : Type} (_t : Nat → Option F) :
    Nat → Option F :=
  fun _ => none

/-- A sequence of dispatch-table operations (registrations and clears). -/
inductive TableOp (F : Type) where
  | reg (address : Nat) (f : F)
  | clear

/-- Apply a sequence of dispatch-table operations, oldest first. -/
def applyOps {F : Type} : List (TableOp F) → (Nat → Option F) → (Nat → Option F)
  | [], t => t
  | op :: rest, t =>
      applyOps rest
        (match op with
         | .reg a f => chip8_register_function t a f
         | .clear => chip8_clear_function_table t)

/-- Modelled from the spec: "lookup(addr) returns exactly what was last
registered at addr (null after clear_all or when nothing was registered)".
Scans the operation sequence keeping the latest registration at the
address, forgetting it on a clear. -/
def specLastRegistered {F : Type} (ops : List (TableOp F)) (a : Nat) : Option F :=
  ops.foldl
    (fun acc op =>
      match op with
      | .reg b f => if b = a then some f else acc
      | .clear => none)
    none

/-- Outcome of the `CHIP8_COMPUTED_JUMP` macro: either the looked-up
function is called on the context, or `chip8_panic` is reached with the
given message and the offending target address. -/
inductive JumpOutcome (F : Type) where
  | call (f : F) (target : Nat)
  | panic (message : String) (target : Nat)
  deriving DecidableEq

/-- `CHIP8_COMPUTED_JUMP` from runtime.h: `target = base + V[0]` (uint16),
then dispatch-table lookup; NULL panics with the target address. -/
def CHIP8_COMPUTED_JUMP {F : Type} (ctx : Chip8Context) (base : Nat)
    (t : Nat → Option F) : JumpOutcome F :=
  let target := (base + ctx.V 0) % 65536
  match chip8_lookup_function t target with
  | some f => .call f target
  | none => .panic "Invalid computed jump target" target

/-! ## ROM identifier derivation (recompiler/src/rom.cpp, `extract_rom_name`) -/

/-- Collapse runs of underscores to a single one: the
`std::unique(..., [](a,b){ return a == '_' && b == '_'; })` step.
(`std::unique` keeps the first element of each run; since all collapsed
elements are the identical character `'_'`, keeping the last of each run —
which makes the recursion structural — produces the same list.) -/
def squashUnderscores : List Char → List Char
  | [] => []
  | [c] => [c]
  | a :: b :: t =>
      if a = '_' ∧ b = '_' then squashUnderscores (b :: t)
      else a :: squashUnderscores (b :: t)

/-- Trim leading and trailing whitespace (the two `erase`/`find_if` steps
of `extract_rom_name`). -/
def trimWhitespace (l : List Char) : List Char :=
  ((l.dropWhile Char.isWhitespace).reverse.dropWhile Char.isWhitespace).reverse

/-- Drop a single leading underscore
(`if (!name.empty() && name.front() == '_') name.erase(0, 1);`). -/
def dropLeadingUnderscore : List Char → List Char
  | [] => []
  | c :: t => if c = '_' then t else c :: t

/-- Drop a single trailing underscore
(`if (!name.empty() && name.back() == '_') name.pop_back();`). -/
def dropTrailingUnderscore (l : List Char) : List Char :=
  if l.getLast? = some '_' then l.dropLast else l

/-- `extract_rom_name` from rom.cpp, applied to the stem of the ROM path
(the file name without directory and extension): cut at the first `[`, cut
at the first `(`, trim whitespace, lowercase, replace non-alphanumerics by
`_`, collapse `_` runs, trim one `_` at each end, fall back to `"rom"` when
empty, and prefix `"rom_"` when the first character is a digit. -/
def extract_rom_name (stem : List Char) : List Char :=
  let s1 := stem.takeWhile (· ≠ '[')
  let s2 := s1.takeWhile (· ≠ '(')
  let s3 := trimWhitespace s2
  let s4 := s3.map Char.toLower
  let s5 := s4.map (fun c => if c.isAlphanum then c else '_')
  let s6 := squashUnderscores s5
  let s7 := dropLeadingUnderscore s6
  let s8 := dropTrailingUnderscore s7
  let s9 := if s8.isEmpty then ['r', 'o', 'm'] else s8
  if (s9.headD ' ').isDigit then 'r' :: 'o' :: 'm' :: '_' :: s9 else s9

/-- A character allowed anywhere in a derived identifier: `[A-Za-z0-9_]`. -/
def identChar (c : Char) : Bool := c.isAlphanum || c = '_'

/-- The regular expression `[A-Za-z_][A-Za-z0-9_]*` as a Boolean predicate
on character lists (in particular it requires non-emptiness). -/
def validIdent : List Char → Bool
  | [] => false
  | c :: t => (c.isAlpha || c = '_') && t.all identChar

/-! ## Control-flow analyzer (recompiler/src/analyzer.cpp)

The `functions` map (pass 5) and the statistics counters are not modelled:
no claim refers to them and they do not feed back into the blocks. -/

/-- A basic block (struct `BasicBlock` in analyzer.h). -/
structure BasicBlock where
  start_address : Nat
  end_address : Nat
  instruction_indices : List Nat
  successors : List Nat
  predecessors : List Nat
  internal_labels : Finset Nat
  is_function_entry : Bool
  is_reachable : Bool

/-- The analysis aggregate (struct `AnalysisResult` in analyzer.h); the
`std::map` of blocks becomes a partial function from start addresses. -/
structure AnalysisResult where
  instructions : List Instruction
  entry_point : Nat
  blocks : Nat → Option BasicBlock
  label_addresses : Finset Nat
  call_targets : Finset Nat
  computed_jump_bases : Finset Nat

/-- The `addr_to_idx` map: built by `addr_to_idx[instructions[i].address] = i`
in index order, so a later index overwrites an earlier one with the same
address. -/
def addrToIdx (instrs : List Instruction) (a : Nat) : Option Nat :=
  (List.range instrs.length).foldl
    (fun acc i => if (instrs.getD i default).address = a then some i else acc)
    none

/-- Pass 1 of `analyze`: collect `(label_addresses, call_targets,
computed_jump_bases)` in one traversal; the entry point is always a call
target. -/
def collectTargets (instrs : List Instruction) (entry : Nat) :
    Finset Nat × Finset Nat × Finset Nat :=
  instrs.foldl
    (fun acc ins =>
      match ins.type with
      | .JP => (insert ins.nnn acc.1, acc.2.1, acc.2.2)
      | .CALL => (insert ins.nnn acc.1, insert ins.nnn acc.2.1, acc.2.2)
      | .JP_V0 => (acc.1, acc.2.1, insert ins.nnn acc.2.2)
      | .SE_VX_NN | .SNE_VX_NN | .SE_VX_VY | .SNE_VX_VY | .SKP | .SKNP =>
          (insert (ins.address + 4) (insert (ins.address + 2) acc.1), acc.2.1, acc.2.2)
      | _ => acc)
    (∅, {entry}, ∅)

/-- `label_addresses` after pass 1. -/
def labelAddresses (instrs : List Instruction) (entry : Nat) : Finset Nat :=
  (collectTargets instrs entry).1

/-- `call_targets` after pass 1. -/
def callTargets (instrs : List Instruction) (entry : Nat) : Finset Nat :=
  (collectTargets instrs entry).2.1

/-- `computed_jump_bases` after pass 1. -/
def computedJumpBases (instrs : List Instruction) (entry : Nat) : Finset Nat :=
  (collectTargets instrs entry).2.2

/-- Pass 2, first half: the set of block start addresses — the entry point,
every label, every call target, and the address after every terminator that
is itself decoded. -/
def blockStarts (instrs : List Instruction) (entry : Nat) : Finset Nat :=
  instrs.foldl
    (fun s ins =>
      if ins.is_terminator && (addrToIdx instrs (ins.address + 2)).isSome then
        insert (ins.address + 2) s
      else s)
    (insert entry (labelAddresses instrs entry ∪ callTargets instrs entry))

/-- Mutable state of the block-construction walk: the instruction indices,
the end address, the successor list and the internal labels accumulated so
far. -/
structure WalkAcc where
  indices : List Nat
  end_address : Nat
  successors : List Nat
  internal_labels : Finset Nat

/-- The `while (idx < instructions.size())` walk of pass 2: stop before an
instruction that starts another block; otherwise take the instruction and
close the block on a jump (`JP` records its target as successor), a return,
a branch (successors `addr+2` and `addr+4`, internal label `addr+4`) or any
other terminator; else fall through to the next index.
`fuel ≥ instrs.length - idx` bounds the walk so the recursion is
structural. -/
def walkLoop (instrs : List Instruction) (bs : Finset Nat) (start : Nat) :
    Nat → Nat → WalkAcc → WalkAcc
  | 0, _, acc => acc
  | fuel + 1, idx, acc =>
      if idx < instrs.length then
        let ins := instrs.getD idx default
        if ins.address ≠ start ∧ ins.address ∈ bs then acc
        else
          let acc1 := { acc with indices := acc.indices ++ [idx],
                                 end_address := ins.address + 2 }
          if ins.is_jump then
            (if ins.type = InstructionType.JP then
               { acc1 with successors := acc1.successors ++ [ins.nnn] }
             else acc1)
          else if ins.is_return then acc1
          else if ins.is_branch then
            { acc1 with successors := acc1.successors ++ [ins.address + 2, ins.address + 4],
                        internal_labels := insert (ins.address + 4) acc1.internal_labels }
          else if ins.is_terminator then acc1
          else walkLoop instrs bs start fuel (idx + 1) acc1
      else acc

/-- One block of pass 2, before predecessors and reachability are filled
in: the walk from `addr_to_idx[start]`, followed by the fall-through check
on the last instruction. -/
def rawBlock (instrs : List Instruction) (entry : Nat) (start : Nat) : BasicBlock :=
  let idx0 := (addrToIdx instrs start).getD 0
  let acc := walkLoop instrs (blockStarts instrs entry) start instrs.length idx0
      ⟨[], 0, [], ∅⟩
  let acc2 :=
    match acc.indices.getLast? with
    | none => acc
    | some lastIdx =>
        let lastIns := instrs.getD lastIdx default
        if !lastIns.is_terminator && !lastIns.is_return
            && (addrToIdx instrs acc.end_address).isSome then
          { acc with successors := acc.successors ++ [acc.end_address] }
        else acc
  { start_address := start,
    end_address := acc2.end_address,
    instruction_indices := acc2.indices,
    successors := acc2.successors,
    predecessors := [],
    internal_labels := acc2.internal_labels,
    is_function_entry := start ∈ callTargets instrs entry,
    is_reachable := false }

/-- The domain of the block map: the block starts that are decoded
addresses (`if (!addr_to_idx.count(start_addr)) continue;`). -/
def blockDom (instrs : List Instruction) (entry : Nat) : Finset Nat :=
  (blockStarts instrs entry).filter (fun a => (addrToIdx instrs a).isSome = true)

/-- Successor list of the block starting at `a`. -/
def blockSuccessors (instrs : List Instruction) (entry : Nat) (a : Nat) : List Nat :=
  (rawBlock instrs entry a).successors

/-- Pass 4 of `analyze`: the BFS worklist loop.  An address is popped from
the front; addresses without a block are skipped, already-marked blocks are
skipped, otherwise the block is marked and its successors are pushed at the
back. -/
def bfsReach (dom : Finset Nat) (succ : Nat → List Nat) :
    Finset Nat → List Nat → Finset Nat
  | marked, [] => marked
  | marked, a :: rest =>
      if a ∈ dom then
        if a ∈ marked then bfsReach dom succ marked rest
        else bfsReach dom succ (insert a marked) (rest ++ succ a)
      else bfsReach dom succ marked rest
  termination_by marked wl => ((dom \ marked).card, wl.length)
  decreasing_by
  · exact Prod.Lex.right _ (by simp [List.length_cons])
  · apply Prod.Lex.left
    have h1 : a ∈ dom \ marked := Finset.mem_sdiff.mpr ⟨by assumption, by assumption⟩
    have h2 : dom \ insert a marked = (dom \ marked).erase a := by
      ext b
      simp only [Finset.mem_sdiff, Finset.mem_insert, Finset.mem_erase]
      tauto
    rw [h2]
    exact Finset.card_erase_lt_of_mem h1
  · exact Prod.Lex.right _ (by simp [List.length_cons])

/-- The worklist the C code seeds the BFS with: the entry point, then every
call target in `std::set` (ascending) order. -/
def seedWorklist (instrs : List Instruction) (entry : Nat) : List Nat :=
  entry :: (callTargets instrs entry).sort (· ≤ ·)

/-- The set of block starts marked reachable by pass 4. -/
def reachSet (instrs : List Instruction) (entry : Nat) : Finset Nat :=
  bfsReach (blockDom instrs entry) (blockSuccessors instrs entry) ∅
    (seedWorklist instrs entry)

/-- Pass 3 of `analyze`: predecessors are the transpose of the successor
lists, accumulated over the blocks in ascending (std::map iteration) order,
one entry per occurrence. -/
def predecessorsOf (instrs : List Instruction) (entry : Nat) (a : Nat) : List Nat :=
  ((blockDom instrs entry).sort (· ≤ ·)).flatMap
    (fun b => List.replicate ((blockSuccessors instrs entry b).count a) b)

/-- A finished block: the pass-2 block with predecessors (pass 3) and the
reachability mark (pass 4) filled in. -/
def finalBlock (instrs : List Instruction) (entry : Nat) (a : Nat) : BasicBlock :=
  { rawBlock instrs entry a with
    predecessors := predecessorsOf instrs entry a,
    is_reachable := decide (a ∈ reachSet instrs entry) }

/-- `analyze` from analyzer.cpp.  An empty instruction vector returns the
default-initialised result at once (so in particular with empty
`call_targets`). -/
def analyze (instrs : List Instruction) (entry : Nat) : AnalysisResult :=
  if instrs.isEmpty then
    { instructions := instrs, entry_point := entry, blocks := fun _ => none,
      label_addresses := ∅, call_targets := ∅, computed_jump_bases := ∅ }
  else
    { instructions := instrs,
      entry_point := entry,
      blocks := fun a =>
        if a ∈ blockDom instrs entry then some (finalBlock instrs entry a) else none,
      label_addresses := labelAddresses instrs entry,
      call_targets := callTargets instrs entry,
      computed_jump_bases := computedJumpBases instrs entry }

/-- The block successor relation of an analysis: `p` steps to `q` when the
block at `p` exists and lists `q` among its successors. -/
def succStep (instrs : List Instruction) (entry : Nat) (p q : Nat) : Prop :=
  ∃ blk, (analyze instrs entry).blocks p = some blk ∧ q ∈ blk.successors

/-- Membership of `a` in the transitive (reflexive-transitive) closure of
`{entry} ∪ call_targets` under the block successor relation. -/
def inReachClosure (instrs : List Instruction) (entry : Nat) (a : Nat) : Prop :=
  ∃ w, (w = entry ∨ w ∈ callTargets instrs entry) ∧
    Relation.ReflTransGen (succStep instrs entry) w a

/-! ## Concrete example states (used by witnesses and counterexamples) -/

/-- A context with every field zeroed, as a base for concrete examples. -/
def zeroCtx : Chip8Context where
  V := fun _ => 0
  I := 0
  PC := 0
  SP := 0
  delay_timer := 0
  sound_timer := 0
  memory := fun _ => 0
  stack := fun _ => 0
  display := fun _ => 0
  display_dirty := false
  keys := fun _ => false
  keys_prev := fun _ => false
  last_key_released := 0
  running := false
  waiting_for_key := false
  key_wait_register := 0
  cycles_remaining := 0
  resume_pc := 0
  should_yield := false
  instruction_count := 0
  frame_count := 0

/-- A freshly created context whose emitted code has just requested a
yield. -/
def yieldingCtx : Chip8Context :=
  { chip8_context_create with should_yield := true }

/-- A context about to draw a 15-row sprite at the bottom edge of the
screen with `I` close to the end of memory: `V[1] = 31`, `I = 4090`. -/
def clipCtx : Chip8Context :=
  { zeroCtx with I := 4090, V := fun i => if i = 1 then 31 else 0 }

/-! ## Theorems -/

/-- Applying "write the arithmetic result to `V[x]`, then the flag to
`V[0xF]`" at an arbitrary register `z`: the flag wins at `z = 0xF` (also
when `x = 0xF`), the result is seen at `z = x ≠ 0xF`, and other registers
are untouched. -/
theorem update2_apply (f : Fin 16 → Nat) (x : Fin 16) (m fl : Nat) (z : Fin 16) :
    Function.update (Function.update f x m) 15 fl z
      = if z = 15 then fl else if z = x then m else f z := by
  rcases eq_or_ne z 15 with h | h <;> rcases eq_or_ne z x with h2 | h2 <;>
    simp [Function.update_apply, h, h2]

/-- Claim C1: every ALU helper (ADD Vx,Vy with carry, SUB, SUBN, SHR, SHL,
including the Vy-sourced shift variants) writes the arithmetic result
before the flag, so for every register index — including `x = 0xF` — the
final value of `V[0xF]` is the flag (carry, NOT-borrow, or ejected shift
bit), while for `x ≠ 0xF` the register `V[x]` holds the 8-bit arithmetic
result; all other registers are unchanged. -/
theorem alu_writes_flag_last (ctx : Chip8Context) (x y z : Fin 16) :
    ((CHIP8_ADD_VX_VY ctx x y).V z
        = if z = 15 then (if 255 < ctx.V x + ctx.V y then 1 else 0)
          else if z = x then (ctx.V x + ctx.V y) % 256 else ctx.V z)
  ∧ ((CHIP8_SUB_VX_VY ctx x y).V z
        = if z = 15 then (if ctx.V y ≤ ctx.V x then 1 else 0)
          else if z = x then (ctx.V x + 256 - ctx.V y) % 256 else ctx.V z)
  ∧ ((CHIP8_SUBN_VX_VY ctx x y).V z
        = if z = 15 then (if ctx.V x ≤ ctx.V y then 1 else 0)
          else if z = x then (ctx.V y + 256 - ctx.V x) % 256 else ctx.V z)
  ∧ ((CHIP8_SHR_VX ctx x).V z
        = if z = 15 then ctx.V x &&& 0x01
          else if z = x then ctx.V x >>> 1 else ctx.V z)
  ∧ ((CHIP8_SHR_VX_VY ctx x y).V z
        = if z = 15 then ctx.V y &&& 0x01
          else if z = x then ctx.V y >>> 1 else ctx.V z)
  ∧ ((CHIP8_SHL_VX ctx x).V z
        = if z = 15 then (ctx.V x &&& 0x80) >>> 7
          else if z = x then (ctx.V x <<< 1) % 256 else ctx.V z)
  ∧ ((CHIP8_SHL_VX_VY ctx x y).V z
        = if z = 15 then (ctx.V y &&& 0x80) >>> 7
          else if z = x then (ctx.V y <<< 1) % 256 else ctx.V z) :=
  ⟨update2_apply .., update2_apply .., update2_apply .., update2_apply ..,
   update2_apply .., update2_apply .., update2_apply ..⟩

/-- Flow-flag consistency passes through a conditional. -/
theorem flagConsistent_ite (c : Prop) [Decidable c] (a b : Instruction)
    (ha : flagConsistent a) (hb : flagConsistent b) :
    flagConsistent (if c then a else b) := by
  split <;> assumption

/-- Claim C4: for every 16-bit opcode and address, the decoded instruction
satisfies `is_terminator = (is_jump || is_return)`, and `is_branch` is set
exactly on the six conditional-skip kinds. -/
theorem decode_flow_flags_consistent (opcode address : Nat) :
    ((decode_opcode opcode address).is_terminator
        = ((decode_opcode opcode address).is_jump
            || (decode_opcode opcode address).is_return))
  ∧ ((decode_opcode opcode address).is_branch
        = isSkipKind (decode_opcode opcode address).type) := by
  suffices h : flagConsistent (decode_opcode opcode address) from ⟨h.1, h.2⟩
  unfold decode_opcode
  dsimp only
  repeat' (first | apply flagConsistent_ite | exact ⟨rfl, rfl⟩)

/-- Any property of instructions passes through a conditional. -/
theorem instr_prop_ite (P : Instruction → Prop) (c : Prop) [Decidable c]
    (a b : Instruction) (ha : P a) (hb : P b) : P (if c then a else b) := by
  split <;> assumption

/-- `decode_opcode` keys the record by the given address. -/
theorem decode_opcode_address (op a : Nat) : (decode_opcode op a).address = a := by
  unfold decode_opcode
  dsimp only
  repeat' (first | apply instr_prop_ite (fun d => d.address = a) | exact rfl)

/-- `decode_opcode` stores the raw opcode in the record. -/
theorem decode_opcode_opcode (op a : Nat) : (decode_opcode op a).opcode = op := by
  unfold decode_opcode
  dsimp only
  repeat' (first | apply instr_prop_ite (fun d => d.opcode = op) | exact rfl)

/-- `decode_rom` produces one record per complete byte pair. -/
theorem decode_rom_length : ∀ (l : List Nat) (base : Nat),
    (decode_rom l base).length = l.length / 2
  | [], _ => by simp [decode_rom]
  | [_], _ => by simp [decode_rom]
  | _ :: _ :: rest, base => by
      simp only [decode_rom, List.length_cons, decode_rom_length rest (base + 2)]
      omega

/-- The `k`-th record of `decode_rom` decodes the big-endian word at byte
offset `2k`, at address `base + 2k` (as `uint16_t`). -/
theorem decode_rom_getElem? : ∀ (l : List Nat) (base k : Nat), k < l.length / 2 →
    (decode_rom l base)[k]?
      = some (decode_opcode ((l.getD (2 * k) 0 <<< 8) ||| l.getD (2 * k + 1) 0)
          ((base + 2 * k) % 65536))
  | [], _, k, h => by
      simp only [List.length_nil] at h
      exact absurd h (by omega)
  | [_], _, k, h => by
      simp only [List.length_cons, List.length_nil] at h
      exact absurd h (by omega)
  | b0 :: b1 :: rest, base, 0, _ => by simp [decode_rom]
  | b0 :: b1 :: rest, base, k + 1, h => by
      have hk : k < rest.length / 2 := by
        simp only [List.length_cons] at h
        omega
      have ih := decode_rom_getElem? rest (base + 2) k hk
      have harith : base + 2 + 2 * k = base + 2 * (k + 1) := by omega
      have e1 : (b0 :: b1 :: rest).getD (2 * (k + 1)) 0 = rest.getD (2 * k) 0 := by
        have h1 : 2 * (k + 1) = 2 * k + 1 + 1 := by omega
        rw [h1]
        simp [List.getD_cons_succ]
      have e2 : (b0 :: b1 :: rest).getD (2 * (k + 1) + 1) 0 = rest.getD (2 * k + 1) 0 := by
        have h2 : 2 * (k + 1) + 1 = 2 * k + 1 + 1 + 1 := by omega
        rw [h2]
        simp [List.getD_cons_succ]
      simp only [decode_rom, List.getElem?_cons_succ, ih, harith, e1, e2]

/-- The addresses of the records of `decode_rom` are `base + 2k` (as
`uint16_t`) for `k` below the number of byte pairs, in order. -/
theorem decode_rom_map_address : ∀ (l : List Nat) (base : Nat),
    (decode_rom l base).map (fun ins => ins.address)
      = (List.range (l.length / 2)).map (fun k => (base + 2 * k) % 65536)
  | [], _ => by simp [decode_rom]
  | [_], _ => by simp [decode_rom]
  | b0 :: b1 :: rest, base => by
      have ih := decode_rom_map_address rest (base + 2)
      have hlen : (b0 :: b1 :: rest).length / 2 = rest.length / 2 + 1 := by
        simp only [List.length_cons]
        omega
      simp only [decode_rom, List.map_cons, decode_opcode_address, ih, hlen,
        List.range_succ_eq_map, List.map_map]
      refine congrArg₂ _ (by simp) (List.map_congr_left fun k _ => ?_)
      simp only [Function.comp_apply]
      have : base + 2 + 2 * k = base + 2 * (k + 1) := by omega
      rw [this]

/-- Claim C3 as stated is false: for a ROM of odd size (here 3 bytes,
within `[2, 3584]`), the even address `0x202` lies in
`[0x200, 0x200 + size)`, yet `decode_rom` returns no record at all for it
(the trailing odd byte is ignored), not exactly one. -/
theorem decode_rom_total_counterexample :
    (decode_rom [0, 0, 0] 0x200).countP (fun ins => ins.address == 0x202) = 0
    ∧ 0x202 % 2 = 0 ∧ 0x200 ≤ 0x202 ∧ 0x202 < 0x200 + (3 : Nat)
    ∧ 2 ≤ (3 : Nat) ∧ (3 : Nat) ≤ 3584 := by
  refine ⟨?_, by decide, by decide, by decide, by decide, by decide⟩
  decide

/-- Claim C3, amended: restricted to even addresses `a` whose second byte
also lies inside the ROM (`a - 0x200 + 1 < size`), `decode_rom` returns
exactly one record with address `a`; its opcode is the big-endian word
`(bytes[a-0x200] << 8) | bytes[a-0x200+1]`, and every record it returns is
at such an address (for an odd ROM size the trailing byte yields no
record). -/
theorem decode_rom_total_amended (bytes : List Nat) (a : Nat)
    (hsize : 2 ≤ bytes.length ∧ bytes.length ≤ 3584)
    (ha : 0x200 ≤ a) (heven : (a - 0x200) % 2 = 0)
    (hin : a - 0x200 + 1 < bytes.length) :
    ((decode_rom bytes 0x200).countP (fun ins => ins.address == a) = 1)
  ∧ (∀ ins ∈ decode_rom bytes 0x200, ins.address = a →
       ins.opcode = (bytes.getD (a - 0x200) 0 <<< 8) ||| bytes.getD (a - 0x200 + 1) 0)
  ∧ (∀ ins ∈ decode_rom bytes 0x200,
       0x200 ≤ ins.address ∧ (ins.address - 0x200) % 2 = 0
         ∧ ins.address - 0x200 + 1 < bytes.length) := by
  obtain ⟨-, hmax⟩ := hsize
  set n := bytes.length / 2 with hn
  set k0 := (a - 0x200) / 2 with hk0
  have h2k0 : 2 * k0 = a - 0x200 := by omega
  have hk0n : k0 < n := by omega
  have hmod : ∀ k, k < n → (0x200 + 2 * k) % 65536 = 0x200 + 2 * k := by
    intro k hk
    exact Nat.mod_eq_of_lt (by omega)
  refine ⟨?_, ?_, ?_⟩
  · have hmap := decode_rom_map_address bytes 0x200
    have hcount : (decode_rom bytes 0x200).countP (fun ins => ins.address == a)
        = ((decode_rom bytes 0x200).map (fun ins => ins.address)).countP (fun v => v == a) := by
      rw [List.countP_map]
      rfl
    rw [hcount, hmap, List.countP_map]
    have hpt : ∀ k ∈ List.range n,
        (((fun v => v == a) ∘ fun k => (0x200 + 2 * k) % 65536) k = true
          ↔ (fun k => k == k0) k = true) := by
      intro k hk
      have hk' := List.mem_range.mp hk
      simp only [Function.comp_apply, hmod k hk', beq_iff_eq]
      omega
    rw [List.countP_congr hpt]
    have : (List.range n).countP (fun k => k == k0) = (List.range n).count k0 := rfl
    rw [this]
    exact List.count_eq_one_of_mem (List.nodup_range n) (List.mem_range.mpr hk0n)
  · intro ins hins haddr
    obtain ⟨k, hk, hget⟩ := List.getElem_of_mem hins
    have hk' : k < n := by
      rw [decode_rom_length] at hk
      exact hk
    have := decode_rom_getElem? bytes 0x200 k hk'
    rw [List.getElem?_eq_getElem hk, hget] at this
    have hins_eq := Option.some.inj this
    have haddr' : ins.address = (0x200 + 2 * k) % 65536 := by
      rw [hins_eq, decode_opcode_address]
    rw [hmod k hk'] at haddr'
    have hkk0 : k = k0 := by omega
    subst hkk0
    rw [hins_eq, decode_opcode_opcode, h2k0]
  · intro ins hins
    have hmap := decode_rom_map_address bytes 0x200
    have : ins.address ∈ (decode_rom bytes 0x200).map (fun i => i.address) :=
      List.mem_map_of_mem _ hins
    rw [hmap] at this
    obtain ⟨k, hk, hfk⟩ := List.mem_map.mp this
    have hk' := List.mem_range.mp hk
    rw [hmod k hk'] at hfk
    omega

/-- Witness for the amended claim C3 at a concrete ROM and address. -/
theorem decode_rom_total_witness :
    (decode_rom [0x12, 0x00, 0x6A, 0x05] 0x200).countP
      (fun ins => ins.address == 0x202) = 1 :=
  (decode_rom_total_amended [0x12, 0x00, 0x6A, 0x05] 0x202
    (by decide) (by decide) (by decide) (by decide)).1

/-- Claim C6 as stated is false: the ROM-switch transaction does not
return every machine-state flag to its initial value.  `should_yield` is a
machine-state flag whose initial (`chip8_context_create`) value is `false`,
but `chip8_context_reset` never writes it, so after reset plus load of a
new ROM it is still `true` on a context that had just yielded (the same
holds for `display_dirty`, which reset forces to `true` while its initial
value is `false`). -/
theorem rom_switch_counterexample :
    (chip8_context_load_program (chip8_context_reset yieldingCtx) [0, 0]).map
        (fun c => c.should_yield) = some true
    ∧ chip8_context_create.should_yield = false := by
  constructor
  · unfold chip8_context_load_program
    rw [if_neg (by simp)]
    rfl
  · rfl

/-- Claim C6, amended: the transaction (reset, then load) zeroes the
registers, stack, display buffer, timers, key state, waiting state and
statistics, sets `PC = 0x200`, `running = true`, `last_key_released = -1`
and `display_dirty = true`, re-loads the new ROM at `0x200` (when it fits,
i.e. `size ≤ 3584`), and leaves the font bytes at `[0x050, 0x0A0)`
unchanged — but it leaves `keys_prev`, `cycles_remaining`, `resume_pc` and
`should_yield` at their pre-transaction values rather than their initial
ones. -/
theorem rom_switch_amended (ctx : Chip8Context) (rom : List Nat)
    (h : rom.length ≤ 3584) :
    ∃ c, chip8_context_load_program (chip8_context_reset ctx) rom = some c
      ∧ c.V = (fun _ => 0) ∧ c.I = 0 ∧ c.PC = 0x200 ∧ c.SP = 0
      ∧ c.delay_timer = 0 ∧ c.sound_timer = 0
      ∧ c.stack = (fun _ => 0) ∧ c.display = (fun _ => 0) ∧ c.display_dirty = true
      ∧ c.keys = (fun _ => false) ∧ c.last_key_released = -1
      ∧ c.running = true ∧ c.waiting_for_key = false ∧ c.key_wait_register = 0
      ∧ c.instruction_count = 0 ∧ c.frame_count = 0
      ∧ (∀ k, k < rom.length → c.memory (0x200 + k) = rom.getD k 0)
      ∧ (∀ a, 0x50 ≤ a → a < 0xA0 → c.memory a = ctx.memory a)
      ∧ c.keys_prev = ctx.keys_prev ∧ c.cycles_remaining = ctx.cycles_remaining
      ∧ c.resume_pc = ctx.resume_pc ∧ c.should_yield = ctx.should_yield := by
  unfold chip8_context_load_program
  rw [if_neg (by omega)]
  refine ⟨_, rfl, rfl, rfl, rfl, rfl, rfl, rfl, rfl, rfl, rfl, rfl, rfl, rfl,
    rfl, rfl, rfl, rfl, ?_, ?_, rfl, rfl, rfl, rfl⟩
  · intro k hk
    show (if 0x200 ≤ 0x200 + k ∧ 0x200 + k < 0x200 + rom.length
          then rom.getD (0x200 + k - 0x200) 0
          else (chip8_context_reset ctx).memory (0x200 + k)) = rom.getD k 0
    rw [if_pos ⟨by omega, by omega⟩]
    have he : 0x200 + k - 0x200 = k := by omega
    rw [he]
  · intro a h1 h2
    show (if 0x200 ≤ a ∧ a < 0x200 + rom.length
          then rom.getD (a - 0x200) 0
          else (chip8_context_reset ctx).memory a) = ctx.memory a
    rw [if_neg (by omega)]
    rfl

/-- Witness for the amended claim C6 at a concrete context and ROM. -/
theorem rom_switch_witness :
    (chip8_context_load_program (chip8_context_reset chip8_context_create) [0xAB]).map
      (fun c => (c.PC, c.display_dirty, c.memory 0x200, c.memory 0x50))
    = some (0x200, true, 0xAB, 0xF0) := by
  obtain ⟨c, hc, hV, hI, hPC, hSP, hdt, hst, hstack, hdisp, hdirty, hkeys, hlkr,
      hrun, hwait, hkwr, hic, hfc, hmem, hfont, hkp, hcr, hrpc, hsy⟩ :=
    rom_switch_amended chip8_context_create [0xAB] (by decide)
  have h1 : c.memory 0x200 = 0xAB := by
    have := hmem 0 (by decide)
    simpa using this
  have h2 : c.memory 0x50 = 0xF0 := by
    rw [hfont 0x50 (by decide) (by decide)]
    rfl
  rw [hc]
  simp [hPC, hdirty, h1, h2]

/-- Looking up an address below `FUNC_TABLE_SIZE` after a sequence of
table operations folds the operations over the initial lookup result. -/
theorem lookup_applyOps {F : Type} (addr : Nat) (h : addr < FUNC_TABLE_SIZE) :
    ∀ (ops : List (TableOp F)) (t : Nat → Option F),
    chip8_lookup_function (applyOps ops t) addr
      = ops.foldl
          (fun acc op =>
            match op with
            | .reg b f => if b = addr then some f else acc
            | .clear => none)
          (chip8_lookup_function t addr)
  | [], t => rfl
  | op :: rest, t => by
      have ih := lookup_applyOps addr h rest
      cases op with
      | reg b f =>
          simp only [applyOps, List.foldl_cons, ih]
          have hstep : chip8_lookup_function (chip8_register_function t b f) addr
              = if b = addr then some f else chip8_lookup_function t addr := by
            unfold chip8_register_function chip8_lookup_function
            by_cases hb : b = addr
            · subst hb
              rw [if_pos h, if_pos h, if_pos rfl, Function.update_same]
            · rw [if_neg hb]
              by_cases hb4 : b < FUNC_TABLE_SIZE
              · rw [if_pos hb4]
                by_cases ha4 : addr < FUNC_TABLE_SIZE
                · rw [if_pos ha4, if_pos ha4, Function.update_noteq (fun hc => hb hc.symm)]
                · rw [if_neg ha4, if_neg ha4]
              · rw [if_neg hb4]
          rw [hstep]
      | clear =>
          simp only [applyOps, List.foldl_cons, ih]
          have hstep : chip8_lookup_function (chip8_clear_function_table t) addr
              = (none : Option F) := by
            unfold chip8_clear_function_table chip8_lookup_function
            split <;> rfl
          rw [hstep]

/-- Claim C7 as stated is false for addresses outside the 4096-entry
table: `chip8_register_function` at address 4096 is silently dropped, so
lookup afterwards returns NULL rather than the function that was last
registered there. -/
theorem dispatch_lookup_counterexample :
    chip8_lookup_function (applyOps [TableOp.reg 4096 (0 : Nat)] (emptyFuncTable Nat)) 4096
      = none
    ∧ specLastRegistered [TableOp.reg 4096 (0 : Nat)] 4096 = some 0 := ⟨rfl, rfl⟩

/-- Claim C7, amended: `CHIP8_COMPUTED_JUMP` computes
`target = base + V[0]` (as `uint16_t`), calls the function found by the
dispatch-table lookup at `target`, and panics with a message carrying the
offending target when the lookup returns NULL; for addresses below the
4096-entry table, lookup returns exactly what was last registered there
(NULL after `clear_all` or when nothing was registered), while
registrations at addresses `≥ 4096` are silently dropped and lookup there
always returns NULL. -/
theorem dispatch_table_amended {F : Type} (ops : List (TableOp F)) (addr : Nat)
    (ctx : Chip8Context) (base : Nat) (t : Nat → Option F) :
    (chip8_lookup_function (applyOps ops (emptyFuncTable F)) addr
       = if addr < FUNC_TABLE_SIZE then specLastRegistered ops addr else none)
  ∧ (CHIP8_COMPUTED_JUMP ctx base t
       = (chip8_lookup_function t ((base + ctx.V 0) % 65536)).elim
           (JumpOutcome.panic "Invalid computed jump target" ((base + ctx.V 0) % 65536))
           (fun f => JumpOutcome.call f ((base + ctx.V 0) % 65536))) := by
  constructor
  · by_cases h : addr < FUNC_TABLE_SIZE
    · rw [if_pos h, lookup_applyOps addr h ops (emptyFuncTable F)]
      have hinit : chip8_lookup_function (emptyFuncTable F) addr = none := by
        unfold chip8_lookup_function emptyFuncTable
        split <;> rfl
      rw [hinit]
      rfl
    · rw [if_neg h]
      generalize applyOps ops (emptyFuncTable F) = t2
      unfold chip8_lookup_function
      rw [if_neg h]
  · unfold CHIP8_COMPUTED_JUMP
    dsimp only
    cases h : chip8_lookup_function t ((base + ctx.V 0) % 65536) <;> simp [h]

/-- Collapsing underscore runs only removes characters. -/
theorem mem_squashUnderscores : ∀ (l : List Char) (x : Char),
    x ∈ squashUnderscores l → x ∈ l
  | [], _, h => h
  | [_], _, h => h
  | a :: b :: t, x, h => by
      by_cases hab : a = '_' ∧ b = '_'
      · rw [squashUnderscores, if_pos hab] at h
        exact List.mem_cons_of_mem _ (mem_squashUnderscores (b :: t) x h)
      · rw [squashUnderscores, if_neg hab] at h
        rcases List.mem_cons.mp h with h1 | h1
        · exact h1 ▸ List.mem_cons_self _ _
        · exact List.mem_cons_of_mem _ (mem_squashUnderscores (b :: t) x h1)

/-- Collapsing underscore runs preserves the head (the collapsed
characters are all `'_'`). -/
theorem head?_squashUnderscores : ∀ l : List Char,
    (squashUnderscores l).head? = l.head?
  | [] => rfl
  | [_] => rfl
  | a :: b :: t => by
      by_cases hab : a = '_' ∧ b = '_'
      · rw [squashUnderscores, if_pos hab, head?_squashUnderscores (b :: t)]
        simp [hab.1, hab.2]
      · rw [squashUnderscores, if_neg hab]
        rfl

/-- After collapsing, no two adjacent characters are both underscores. -/
theorem chain'_squashUnderscores : ∀ l : List Char,
    List.Chain' (fun a b => ¬(a = '_' ∧ b = '_')) (squashUnderscores l)
  | [] => by rw [squashUnderscores]; simp
  | [c] => by rw [squashUnderscores]; simp
  | a :: b :: t => by
      by_cases hab : a = '_' ∧ b = '_'
      · rw [squashUnderscores, if_pos hab]
        exact chain'_squashUnderscores (b :: t)
      · rw [squashUnderscores, if_neg hab]
        rw [List.chain'_cons']
        refine ⟨?_, chain'_squashUnderscores (b :: t)⟩
        intro z hz
        rw [head?_squashUnderscores (b :: t)] at hz
        cases hz
        intro hcon
        exact hab ⟨hcon.1, hcon.2⟩

/-- No nonempty suffix produced by `dropLeadingUnderscore` from a
collapsed list starts with an underscore. -/
theorem head_dropLeadingUnderscore (l : List Char)
    (hch : List.Chain' (fun a b => ¬(a = '_' ∧ b = '_')) l) :
    ∀ c, (dropLeadingUnderscore l).head? = some c → c ≠ '_' := by
  cases l with
  | nil => intro c hc; simp [dropLeadingUnderscore] at hc
  | cons a t =>
      intro c hc
      rw [dropLeadingUnderscore] at hc
      by_cases ha : a = '_'
      · rw [if_pos ha] at hc
        cases t with
        | nil => simp at hc
        | cons b t' =>
            simp only [List.head?_cons, Option.some.injEq] at hc
            subst hc
            have := (List.chain'_cons.mp hch).1
            intro hcb
            exact this ⟨ha, hcb⟩
      · rw [if_neg ha] at hc
        simp only [List.head?_cons, Option.some.injEq] at hc
        subst hc
        exact ha

/-- `dropTrailingUnderscore` only removes characters. -/
theorem mem_dropTrailingUnderscore (l : List Char) (x : Char)
    (h : x ∈ dropTrailingUnderscore l) : x ∈ l := by
  unfold dropTrailingUnderscore at h
  split at h
  · exact (List.dropLast_sublist l).mem h
  · exact h

/-- `dropTrailingUnderscore` preserves an existing head when the result is
nonempty. -/
theorem head?_dropTrailingUnderscore (l : List Char) (c : Char)
    (h : (dropTrailingUnderscore l).head? = some c) : l.head? = some c := by
  unfold dropTrailingUnderscore at h
  split at h
  · cases l with
    | nil => simp at h
    | cons a t =>
        cases t with
        | nil => simp at h
        | cons b t' =>
            rw [List.dropLast_cons₂] at h
            simpa using h
  · exact h

/-- `dropLeadingUnderscore` only removes a character. -/
theorem mem_dropLeadingUnderscore (l : List Char) (x : Char)
    (h : x ∈ dropLeadingUnderscore l) : x ∈ l := by
  cases l with
  | nil => exact h
  | cons a t =>
      rw [dropLeadingUnderscore] at h
      split at h
      · exact List.mem_cons_of_mem _ h
      · exact h

/-- Every character of the replacement step's output is a letter, a digit
or an underscore. -/
theorem identChar_of_mem_replaced (l : List Char) (c : Char)
    (h : c ∈ l.map (fun c => if c.isAlphanum then c else '_')) :
    identChar c = true := by
  obtain ⟨d, -, hd⟩ := List.mem_map.mp h
  by_cases hda : d.isAlphanum
  · rw [if_pos hda] at hd
    subst hd
    simp [identChar, hda]
  · rw [if_neg hda] at hd
    subst hd
    decide

/-- The final two steps of `extract_rom_name` (empty fallback and digit
prefix) produce a valid identifier from any list of identifier characters
whose head is not an underscore. -/
theorem validIdent_assemble (l : List Char)
    (hall : ∀ c ∈ l, identChar c = true)
    (hhead : ∀ c, l.head? = some c → c ≠ '_') :
    validIdent
      (if ((if l.isEmpty then ['r', 'o', 'm'] else l).headD ' ').isDigit
       then 'r' :: 'o' :: 'm' :: '_' :: (if l.isEmpty then ['r', 'o', 'm'] else l)
       else (if l.isEmpty then ['r', 'o', 'm'] else l)) = true := by
  cases l with
  | nil => decide
  | cons c t =>
      have hcid : identChar c = true := hall c (List.mem_cons_self c t)
      have hcne : c ≠ '_' := hhead c rfl
      have hcal : c.isAlphanum = true := by
        rcases Bool.or_eq_true_iff.mp hcid with h | h
        · exact h
        · exact absurd (by simpa using h) hcne
      have htall : t.all identChar = true :=
        List.all_eq_true.mpr fun x hx => hall x (List.mem_cons_of_mem c hx)
      simp only [List.isEmpty_cons, Bool.false_eq_true, if_false, List.headD_cons]
      by_cases hd : c.isDigit
      · rw [if_pos hd]
        unfold validIdent
        rw [Bool.and_eq_true]
        refine ⟨by decide, ?_⟩
        simp only [List.all_cons, htall, Bool.and_true, identChar] at hcid ⊢
        simp [hcid]
      · rw [if_neg hd]
        unfold validIdent
        rw [Bool.and_eq_true]
        constructor
        · have : c.isAlpha = true := by
            rcases Bool.or_eq_true_iff.mp hcal with h | h
            · exact h
            · exact absurd h (by simpa using hd)
          simp [this]
        · exact htall

/-- Claim C9: for every ROM file name (its stem), the derived identifier —
obtained by stripping bracketed/parenthesized metadata, lowercasing,
replacing non-alphanumeric runs by a single underscore, trimming leading
and trailing underscores, prefixing `rom_` for a leading digit and falling
back to `rom` when empty — is a nonempty string matching
`[A-Za-z_][A-Za-z0-9_]*`. -/
theorem extract_rom_name_valid (stem : List Char) :
    validIdent (extract_rom_name stem) = true := by
  unfold extract_rom_name
  dsimp only
  apply validIdent_assemble
  · intro c hc
    exact identChar_of_mem_replaced _ c
      (mem_squashUnderscores _ c
        (mem_dropLeadingUnderscore _ c
          (mem_dropTrailingUnderscore _ c hc)))
  · intro c hc
    exact head_dropLeadingUnderscore _ (chain'_squashUnderscores _) c
      (head?_dropTrailingUnderscore _ c hc)

/-- `writeMem` succeeds exactly below the end of memory. -/
theorem writeMem_lt (ctx : Chip8Context) (a v : Nat) (h : a < 4096) :
    writeMem ctx a v = some { ctx with memory := Function.update ctx.memory a v } := by
  unfold writeMem
  rw [if_pos h]

/-- `writeMem` at or beyond the end of memory is the out-of-bounds branch. -/
theorem writeMem_ge (ctx : Chip8Context) (a v : Nat) (h : 4096 ≤ a) :
    writeMem ctx a v = none := by
  unfold writeMem
  rw [if_neg (by omega)]

/-- Field equations of a successful `writeMem`. -/
theorem writeMem_some_fields (ctx : Chip8Context) (a v : Nat) (c : Chip8Context)
    (h : writeMem ctx a v = some c) :
    a < 4096 ∧ c.memory = Function.update ctx.memory a v ∧ c.V = ctx.V
      ∧ c.I = ctx.I ∧ c.display = ctx.display ∧ c.stack = ctx.stack := by
  unfold writeMem at h
  split at h
  · obtain rfl := Option.some.inj h
    exact ⟨by assumption, rfl, rfl, rfl, rfl, rfl⟩
  · cases h

/-- The store-registers loop succeeds iff it is already done or its last
store `memory[I + x]` stays in bounds. -/
theorem storeRegsLoop_isSome (x : Fin 16) : ∀ (fuel i : Nat) (ctx : Chip8Context),
    x.val + 1 - i ≤ fuel →
    ((storeRegsLoop x fuel i ctx).isSome = true
      ↔ (x.val < i ∨ ctx.I + x.val < 4096))
  | 0, i, ctx, hfuel => by
      rw [storeRegsLoop]
      simp only [Option.isSome_some, true_iff]
      omega
  | fuel + 1, i, ctx, hfuel => by
      rw [storeRegsLoop]
      by_cases hi : i ≤ x.val
      · rw [dif_pos hi]
        cases hw : writeMem ctx (ctx.I + i) (ctx.V ⟨i, Nat.lt_of_le_of_lt hi x.isLt⟩) with
        | none =>
            have h4 : 4096 ≤ ctx.I + i := by
              by_contra hlt
              rw [writeMem_lt _ _ _ (by omega)] at hw
              simp at hw
            simp only [Option.isSome_none, Bool.false_eq_true, false_iff]
            omega
        | some c =>
            obtain ⟨hb, -, -, hcI, -, -⟩ := writeMem_some_fields _ _ _ _ hw
            have ih := storeRegsLoop_isSome x fuel (i + 1) c (by omega)
            rw [ih, hcI]
            omega
      · rw [dif_neg hi]
        simp only [Option.isSome_some, true_iff]
        omega

/-- Successful run of the store-registers loop: `V`, `I`, display and
stack are untouched, `memory[I + j] = V[j]` for the stored range, and all
other cells are untouched. -/
theorem storeRegsLoop_some (x : Fin 16) : ∀ (fuel i : Nat) (ctx : Chip8Context),
    x.val + 1 - i ≤ fuel → ctx.I + x.val < 4096 →
    ∃ c, storeRegsLoop x fuel i ctx = some c
      ∧ c.V = ctx.V ∧ c.I = ctx.I ∧ c.display = ctx.display ∧ c.stack = ctx.stack
      ∧ (∀ j, ∀ hj : j ≤ x.val, i ≤ j →
          c.memory (ctx.I + j) = ctx.V ⟨j, Nat.lt_of_le_of_lt hj x.isLt⟩)
      ∧ (∀ a, a < ctx.I + i ∨ ctx.I + x.val < a → c.memory a = ctx.memory a)
  | 0, i, ctx, hfuel, hbound => by
      rw [storeRegsLoop]
      refine ⟨ctx, rfl, rfl, rfl, rfl, rfl, ?_, fun a _ => rfl⟩
      intro j hj hij
      exact ((by omega : False)).elim
  | fuel + 1, i, ctx, hfuel, hbound => by
      rw [storeRegsLoop]
      by_cases hi : i ≤ x.val
      · rw [dif_pos hi]
        cases hw : writeMem ctx (ctx.I + i) (ctx.V ⟨i, Nat.lt_of_le_of_lt hi x.isLt⟩) with
        | none =>
            rw [writeMem_lt _ _ _ (by omega)] at hw
            simp at hw
        | some c =>
            obtain ⟨hb, hcmem, hcV, hcI, hcdisp, hcstack⟩ := writeMem_some_fields _ _ _ _ hw
            have ih := storeRegsLoop_some x fuel (i + 1) c (by omega)
                (by rw [hcI]; omega)
            obtain ⟨c2, hrun, hV, hI, hdisp, hstack, hmem1, hmem2⟩ := ih
            refine ⟨c2, hrun, ?_, ?_, ?_, ?_, ?_, ?_⟩
            · rw [hV, hcV]
            · rw [hI, hcI]
            · rw [hdisp, hcdisp]
            · rw [hstack, hcstack]
            · intro j hj hij
              by_cases hji : j = i
              · subst hji
                have hu := hmem2 (ctx.I + j) (by rw [hcI]; omega)
                rw [hu, hcmem, Function.update_same]
              · have h1 := hmem1 j hj (by omega)
                rw [hcI] at h1
                rw [h1, hcV]
            · intro a ha
              have hu := hmem2 a (by rw [hcI]; omega)
              rw [hu, hcmem, Function.update_noteq (by omega)]
      · rw [dif_neg hi]
        refine ⟨ctx, rfl, rfl, rfl, rfl, rfl, ?_, fun a _ => rfl⟩
        intro j hj hij
        exact ((by omega : False)).elim

/-- The load-registers loop succeeds iff it is already done or its last
read `memory[I + x]` stays in bounds. -/
theorem loadRegsLoop_isSome (x : Fin 16) : ∀ (fuel i : Nat) (ctx : Chip8Context),
    x.val + 1 - i ≤ fuel →
    ((loadRegsLoop x fuel i ctx).isSome = true
      ↔ (x.val < i ∨ ctx.I + x.val < 4096))
  | 0, i, ctx, hfuel => by
      rw [loadRegsLoop]
      simp only [Option.isSome_some, true_iff]
      omega
  | fuel + 1, i, ctx, hfuel => by
      rw [loadRegsLoop]
      by_cases hi : i ≤ x.val
      · rw [dif_pos hi]
        cases hw : readMem ctx (ctx.I + i) with
        | none =>
            have h4 : 4096 ≤ ctx.I + i := by
              by_contra hlt
              unfold readMem at hw
              rw [if_pos (by omega)] at hw
              simp at hw
            simp only [Option.isSome_none, Bool.false_eq_true, false_iff]
            omega
        | some v =>
            have hb : ctx.I + i < 4096 := by
              unfold readMem at hw
              by_contra hge
              rw [if_neg (by omega)] at hw
              simp at hw
            have ih := loadRegsLoop_isSome x fuel (i + 1)
                { ctx with V := Function.update ctx.V ⟨i, Nat.lt_of_le_of_lt hi x.isLt⟩ v }
                (by omega)
            dsimp only at ih
            rw [ih]
            omega
      · rw [dif_neg hi]
        simp only [Option.isSome_some, true_iff]
        omega

/-- Successful run of the load-registers loop: memory, `I`, display and
stack are untouched, `V[j] = memory[I + j]` for the loaded range, and the
other registers are untouched. -/
theorem loadRegsLoop_some (x : Fin 16) : ∀ (fuel i : Nat) (ctx : Chip8Context),
    x.val + 1 - i ≤ fuel → ctx.I + x.val < 4096 →
    ∃ c, loadRegsLoop x fuel i ctx = some c
      ∧ c.memory = ctx.memory ∧ c.I = ctx.I ∧ c.display = ctx.display
      ∧ c.stack = ctx.stack
      ∧ (∀ j, ∀ hj : j ≤ x.val, i ≤ j →
          c.V ⟨j, Nat.lt_of_le_of_lt hj x.isLt⟩ = ctx.memory (ctx.I + j))
      ∧ (∀ z : Fin 16, z.val < i ∨ x.val < z.val → c.V z = ctx.V z)
  | 0, i, ctx, hfuel, hbound => by
      rw [loadRegsLoop]
      refine ⟨ctx, rfl, rfl, rfl, rfl, rfl, ?_, fun z _ => rfl⟩
      intro j hj hij
      exact ((by omega : False)).elim
  | fuel + 1, i, ctx, hfuel, hbound => by
      rw [loadRegsLoop]
      by_cases hi : i ≤ x.val
      · rw [dif_pos hi]
        cases hw : readMem ctx (ctx.I + i) with
        | none =>
            unfold readMem at hw
            rw [if_pos (by omega)] at hw
            simp at hw
        | some v =>
            have hv : v = ctx.memory (ctx.I + i) := by
              unfold readMem at hw
              rw [if_pos (by omega)] at hw
              exact (Option.some.inj hw).symm
            have ih := loadRegsLoop_some x fuel (i + 1)
                { ctx with V := Function.update ctx.V ⟨i, Nat.lt_of_le_of_lt hi x.isLt⟩ v }
                (by omega) (by exact hbound)
            dsimp only at ih
            obtain ⟨c2, hrun, hmem, hI, hdisp, hstack, hV1, hV2⟩ := ih
            refine ⟨c2, hrun, hmem, hI, hdisp, hstack, ?_, ?_⟩
            · intro j hj hij
              by_cases hji : j = i
              · subst hji
                have hu := hV2 ⟨j, Nat.lt_of_le_of_lt hj x.isLt⟩ (by left; simp)
                rw [hu, Function.update_same, hv]
              · have h1 := hV1 j hj (by omega)
                rw [h1]
            · intro z hz
              have hu := hV2 z (by omega)
              rw [hu, Function.update_noteq]
              intro hc
              rw [hc] at hz
              simp at hz
              omega
      · rw [dif_neg hi]
        refine ⟨ctx, rfl, rfl, rfl, rfl, rfl, ?_, fun z _ => rfl⟩
        intro j hj hij
        exact ((by omega : False)).elim

/-- `chip8_store_registers`: successful effect — `V` untouched, `I`
advanced by `x + 1` exactly when the quirk is set, `memory[I + j] = V[j]`
for `j ≤ x`, other cells untouched. -/
theorem chip8_store_registers_spec (ctx : Chip8Context) (x : Fin 16) (inc : Bool)
    (h : ctx.I + x.val < 4096) :
    ∃ c, chip8_store_registers ctx x inc = some c
      ∧ c.V = ctx.V
      ∧ c.I = (if inc then (ctx.I + x.val + 1) % 65536 else ctx.I)
      ∧ (∀ j, ∀ hj : j ≤ x.val,
          c.memory (ctx.I + j) = ctx.V ⟨j, Nat.lt_of_le_of_lt hj x.isLt⟩)
      ∧ (∀ a, a < ctx.I ∨ ctx.I + x.val < a → c.memory a = ctx.memory a) := by
  obtain ⟨c0, hrun, hV, hI, hdisp, hstack, hm1, hm2⟩ :=
    storeRegsLoop_some x (x.val + 1) 0 ctx (by omega) h
  unfold chip8_store_registers
  rw [hrun]
  cases inc with
  | false =>
      refine ⟨c0, by simp, hV, by simp [hI], ?_, ?_⟩
      · intro j hj
        exact hm1 j hj (Nat.zero_le j)
      · intro a ha
        exact hm2 a (by omega)
  | true =>
      refine ⟨{ c0 with I := (c0.I + x.val + 1) % 65536 }, by simp, hV, ?_, ?_, ?_⟩
      · dsimp only
        rw [hI]
        simp
      · intro j hj
        exact hm1 j hj (Nat.zero_le j)
      · intro a ha
        exact hm2 a (by omega)

/-- `chip8_load_registers`: successful effect — memory untouched, `I`
advanced by `x + 1` exactly when the quirk is set, `V[j] = memory[I + j]`
for `j ≤ x`, other registers untouched. -/
theorem chip8_load_registers_spec (ctx : Chip8Context) (x : Fin 16) (inc : Bool)
    (h : ctx.I + x.val < 4096) :
    ∃ c, chip8_load_registers ctx x inc = some c
      ∧ c.memory = ctx.memory
      ∧ c.I = (if inc then (ctx.I + x.val + 1) % 65536 else ctx.I)
      ∧ (∀ j, ∀ hj : j ≤ x.val,
          c.V ⟨j, Nat.lt_of_le_of_lt hj x.isLt⟩ = ctx.memory (ctx.I + j))
      ∧ (∀ z : Fin 16, x.val < z.val → c.V z = ctx.V z) := by
  obtain ⟨c0, hrun, hmem, hI, hdisp, hstack, hV1, hV2⟩ :=
    loadRegsLoop_some x (x.val + 1) 0 ctx (by omega) h
  unfold chip8_load_registers
  rw [hrun]
  cases inc with
  | false =>
      refine ⟨c0, by simp, hmem, by simp [hI], ?_, ?_⟩
      · intro j hj
        exact hV1 j hj (Nat.zero_le j)
      · intro z hz
        exact hV2 z (by omega)
  | true =>
      refine ⟨{ c0 with I := (c0.I + x.val + 1) % 65536 }, by simp, hmem, ?_, ?_, ?_⟩
      · dsimp only
        rw [hI]
        simp
      · intro j hj
        exact hV1 j hj (Nat.zero_le j)
      · intro z hz
        exact hV2 z (by omega)

/-- `chip8_store_registers` hits its out-of-bounds branch exactly when
`I + x` is past the end of memory. -/
theorem chip8_store_registers_isSome (ctx : Chip8Context) (x : Fin 16) (inc : Bool) :
    (chip8_store_registers ctx x inc).isSome = true ↔ ctx.I + x.val < 4096 := by
  unfold chip8_store_registers
  have h := storeRegsLoop_isSome x (x.val + 1) 0 ctx (by omega)
  cases hw : storeRegsLoop x (x.val + 1) 0 ctx with
  | none =>
      rw [hw] at h
      simp only [Option.isSome_none, Bool.false_eq_true, false_iff] at h ⊢
      omega
  | some c =>
      rw [hw] at h
      simp only [Option.isSome_some, true_iff] at h ⊢
      omega

/-- `chip8_load_registers` hits its out-of-bounds branch exactly when
`I + x` is past the end of memory. -/
theorem chip8_load_registers_isSome (ctx : Chip8Context) (x : Fin 16) (inc : Bool) :
    (chip8_load_registers ctx x inc).isSome = true ↔ ctx.I + x.val < 4096 := by
  unfold chip8_load_registers
  have h := loadRegsLoop_isSome x (x.val + 1) 0 ctx (by omega)
  cases hw : loadRegsLoop x (x.val + 1) 0 ctx with
  | none =>
      rw [hw] at h
      simp only [Option.isSome_none, Bool.false_eq_true, false_iff] at h ⊢
      omega
  | some c =>
      rw [hw] at h
      simp only [Option.isSome_some, true_iff] at h ⊢
      omega

/-- `chip8_store_bcd` hits its out-of-bounds branch exactly when `I + 2`
is past the end of memory (it always stores at offsets 0, 1 and 2). -/
theorem chip8_store_bcd_isSome (ctx : Chip8Context) (x : Fin 16) :
    (chip8_store_bcd ctx x).isSome = true ↔ ctx.I + 2 < 4096 := by
  unfold chip8_store_bcd
  dsimp only
  by_cases h1 : ctx.I < 4096
  · rw [writeMem_lt _ _ _ h1]
    dsimp only
    by_cases h2 : ctx.I + 1 < 4096
    · rw [writeMem_lt _ _ _ h2]
      dsimp only
      by_cases h3 : ctx.I + 2 < 4096
      · rw [writeMem_lt _ _ _ h3]
        simp only [Option.isSome_some, true_iff]
        exact h3
      · rw [writeMem_ge _ _ _ (by omega)]
        simp only [Option.isSome_none, Bool.false_eq_true, false_iff]
        omega
    · rw [writeMem_ge _ _ _ (by omega)]
      simp only [Option.isSome_none, Bool.false_eq_true, false_iff]
      omega
  · rw [writeMem_ge _ _ _ (by omega)]
    simp only [Option.isSome_none, Bool.false_eq_true, false_iff]
    omega

/-- `drawPixel` touches only `V` and the display: memory, `I` and the
dirty flag are unchanged. -/
theorem drawPixel_fields (xx yy col b : Nat) (ctx : Chip8Context) :
    (drawPixel xx yy col b ctx).memory = ctx.memory
    ∧ (drawPixel xx yy col b ctx).I = ctx.I
    ∧ (drawPixel xx yy col b ctx).display_dirty = ctx.display_dirty := by
  unfold drawPixel
  dsimp only
  split
  · split <;> exact ⟨rfl, rfl, rfl⟩
  · exact ⟨rfl, rfl, rfl⟩

/-- `drawPixel` does not change any display cell but its own. -/
theorem drawPixel_display_ne (xx yy col b : Nat) (ctx : Chip8Context) (i : Nat)
    (h : i ≠ yy * 64 + (xx + col)) :
    (drawPixel xx yy col b ctx).display i = ctx.display i := by
  unfold drawPixel
  dsimp only
  split
  · dsimp only
    rw [Function.update_noteq h]
    split <;> rfl
  · rfl

/-- With its sprite bit set, `drawPixel` XORs its display cell. -/
theorem drawPixel_display_eq (xx yy col b : Nat) (ctx : Chip8Context)
    (h : b &&& (0x80 >>> col) ≠ 0) :
    (drawPixel xx yy col b ctx).display (yy * 64 + (xx + col))
      = ctx.display (yy * 64 + (xx + col)) ^^^ 1 := by
  unfold drawPixel
  dsimp only
  rw [if_pos h]
  dsimp only
  rw [Function.update_same]
  split <;> rfl

/-- With its sprite bit clear, `drawPixel` is the identity. -/
theorem drawPixel_skip (xx yy col b : Nat) (ctx : Chip8Context)
    (h : ¬b &&& (0x80 >>> col) ≠ 0) :
    drawPixel xx yy col b ctx = ctx := by
  unfold drawPixel
  dsimp only
  rw [if_neg h]

/-- A set sprite bit over an already-lit pixel records the collision. -/
theorem drawPixel_V_hit (xx yy col b : Nat) (ctx : Chip8Context)
    (h : b &&& (0x80 >>> col) ≠ 0)
    (hd : ctx.display (yy * 64 + (xx + col)) ≠ 0) :
    (drawPixel xx yy col b ctx).V = Function.update ctx.V 15 1 := by
  unfold drawPixel
  dsimp only
  rw [if_pos h]
  dsimp only
  rw [if_pos hd]

/-- Over a dark pixel the registers are untouched. -/
theorem drawPixel_V_miss (xx yy col b : Nat) (ctx : Chip8Context)
    (hd : ¬ctx.display (yy * 64 + (xx + col)) ≠ 0) :
    (drawPixel xx yy col b ctx).V = ctx.V := by
  unfold drawPixel
  dsimp only
  by_cases hb : b &&& (0x80 >>> col) ≠ 0
  · rw [if_pos hb]
    dsimp only
    rw [if_neg hd]
  · rw [if_neg hb]

/-- The column loop touches only `V` and the display: memory, `I` and the
dirty flag are unchanged. -/
theorem drawColsLoop_fields : ∀ (xx yy b fuel col : Nat) (ctx : Chip8Context),
    (drawColsLoop xx yy b fuel col ctx).memory = ctx.memory
    ∧ (drawColsLoop xx yy b fuel col ctx).I = ctx.I
    ∧ (drawColsLoop xx yy b fuel col ctx).display_dirty = ctx.display_dirty
  | xx, yy, b, 0, col, ctx => ⟨rfl, rfl, rfl⟩
  | xx, yy, b, fuel + 1, col, ctx => by
      rw [drawColsLoop]
      by_cases h : 64 ≤ xx + col
      · rw [if_pos h]
        exact ⟨rfl, rfl, rfl⟩
      · rw [if_neg h]
        obtain ⟨hm, hI, hd⟩ :=
          drawColsLoop_fields xx yy b fuel (col + 1) (drawPixel xx yy col b ctx)
        obtain ⟨pm, pI, pd⟩ := drawPixel_fields xx yy col b ctx
        exact ⟨hm.trans pm, hI.trans pI, hd.trans pd⟩

/-- The row loop of `chip8_draw_sprite` succeeds iff there is nothing to
draw or the last sprite byte actually read — at offset
`min (fuel - 1) (32 - yy - row)`, because the byte of the first clipped
row is still read before the clip test — is in bounds. -/
theorem drawRowsLoop_isSome (xx yy : Nat) : ∀ (fuel row : Nat) (ctx : Chip8Context),
    yy + row ≤ 32 →
    ((drawRowsLoop xx yy fuel row ctx).isSome = true
      ↔ (fuel = 0 ∨ ctx.I + (min (fuel - 1) (32 - yy - row) + row) < 4096))
  | 0, row, ctx, hrow => by
      rw [drawRowsLoop]
      simp
  | fuel + 1, row, ctx, hrow => by
      rw [drawRowsLoop]
      cases hw : readMem ctx (ctx.I + row) with
      | none =>
          have h4 : 4096 ≤ ctx.I + row := by
            by_contra hlt
            unfold readMem at hw
            rw [if_pos (by omega)] at hw
            simp at hw
          simp only [Option.isSome_none, Bool.false_eq_true, false_iff]
          omega
      | some b =>
          have hb : ctx.I + row < 4096 := by
            unfold readMem at hw
            by_contra hge
            rw [if_neg (by omega)] at hw
            simp at hw
          dsimp only
          by_cases hclip : 32 ≤ yy + row
          · rw [if_pos hclip]
            simp only [Option.isSome_some, true_iff]
            omega
          · rw [if_neg hclip]
            obtain ⟨-, hI, -⟩ := drawColsLoop_fields xx (yy + row) b 8 0 ctx
            have ih := drawRowsLoop_isSome xx yy fuel (row + 1)
                (drawColsLoop xx (yy + row) b 8 0 ctx) (by omega)
            rw [ih, hI]
            omega

/-- `chip8_draw_sprite` hits its out-of-bounds branch exactly when a
sprite byte the loop actually reads lies past the end of memory; because
of bottom-edge clipping the highest offset read is
`min (height - 1) (32 - V[vy] % 32)`, not `height - 1`. -/
theorem chip8_draw_sprite_isSome (ctx : Chip8Context) (vx vy : Fin 16) (height : Nat) :
    (chip8_draw_sprite ctx vx vy height).isSome = true
      ↔ (height = 0 ∨ ctx.I + min (height - 1) (32 - ctx.V vy % 32) < 4096) := by
  unfold chip8_draw_sprite
  dsimp only
  have hy : ctx.V vy % 32 < 32 := Nat.mod_lt _ (by omega)
  have h := drawRowsLoop_isSome (ctx.V vx % 64) (ctx.V vy % 32) height 0
      { ctx with V := Function.update ctx.V 15 0 } (by omega)
  dsimp only at h
  cases hw : drawRowsLoop (ctx.V vx % 64) (ctx.V vy % 32) height 0
      { ctx with V := Function.update ctx.V 15 0 } with
  | none =>
      rw [hw] at h
      simp only [Option.isSome_none, Bool.false_eq_true, false_iff] at h ⊢
      omega
  | some c =>
      rw [hw] at h
      simp only [Option.isSome_some, true_iff] at h ⊢
      omega

/-- Claim C8 as stated is false in its "V is not restored unless I was
restored" part: on a freshly created context (all registers zero, working
RAM zero), `LD [I],V0` followed by `LD V0,[I]` with the increment quirk on
leaves every register equal to its prior value even though `I` advanced
from 0 to 2 and was never restored. -/
theorem storeload_restore_counterexample :
    ((chip8_store_registers chip8_context_create 0 true).bind
        (fun c => chip8_load_registers c 0 true)).map
        (fun d => (decide (d.V = chip8_context_create.V), d.I))
      = some (true, 2)
    ∧ chip8_context_create.I = 0 := by
  exact ⟨by decide, rfl⟩

/-- Claim C8, amended: with `increment_i` false, store then load of
`V[0..x]` leaves `V` and `I` unchanged; with `increment_i` true each of
the two operations sets `I := I + x + 1`, so the pair advances `I` by
`2·(x+1)`, and if `I` is restored between the two operations then `V` is
restored as well — but `V` may coincidentally return to its prior value
even when `I` was not restored (see the counterexample). -/
theorem store_load_registers_amended (ctx : Chip8Context) (x : Fin 16)
    (h : ctx.I + x.val ≤ 4095) :
    (∃ c, chip8_store_registers ctx x false = some c
       ∧ ∃ d, chip8_load_registers c x false = some d ∧ d.V = ctx.V ∧ d.I = ctx.I)
  ∧ ((chip8_store_registers ctx x true).map (fun c => c.I) = some (ctx.I + x.val + 1))
  ∧ ((chip8_load_registers ctx x true).map (fun c => c.I) = some (ctx.I + x.val + 1))
  ∧ (ctx.I + 2 * x.val + 1 ≤ 4095 →
      ∃ c, chip8_store_registers ctx x true = some c
        ∧ ∃ d, chip8_load_registers c x true = some d
            ∧ d.I = ctx.I + 2 * (x.val + 1))
  ∧ (∃ c, chip8_store_registers ctx x true = some c
       ∧ ∃ d, chip8_load_registers { c with I := ctx.I } x true = some d
           ∧ d.V = ctx.V ∧ d.I = ctx.I + x.val + 1) := by
  have hmod : (ctx.I + x.val + 1) % 65536 = ctx.I + x.val + 1 :=
    Nat.mod_eq_of_lt (by omega)
  refine ⟨?_, ?_, ?_, ?_, ?_⟩
  · obtain ⟨c, hc, hcV, hcI, hcm1, hcm2⟩ :=
      chip8_store_registers_spec ctx x false (by omega)
    simp only [if_neg Bool.false_ne_true] at hcI
    obtain ⟨d, hd, hdm, hdI, hdV1, hdV2⟩ :=
      chip8_load_registers_spec c x false (by omega)
    refine ⟨c, hc, d, hd, ?_, ?_⟩
    · funext z
      by_cases hz : z.val ≤ x.val
      · have h1 := hdV1 z.val hz
        rw [Fin.eta] at h1
        rw [h1, hcI]
        have h2 := hcm1 z.val hz
        rw [h2, Fin.eta]
      · rw [hdV2 z (by omega), hcV]
    · rw [hdI]
      simp only [if_neg Bool.false_ne_true]
      rw [hcI]
  · obtain ⟨c, hc, -, hcI, -, -⟩ := chip8_store_registers_spec ctx x true (by omega)
    rw [hc]
    show some _ = some _
    dsimp only
    rw [hcI, if_pos rfl, hmod]
  · obtain ⟨c, hc, -, hcI, -, -⟩ := chip8_load_registers_spec ctx x true (by omega)
    rw [hc]
    show some _ = some _
    dsimp only
    rw [hcI, if_pos rfl, hmod]
  · intro h2
    obtain ⟨c, hc, hcV, hcI, hcm1, hcm2⟩ :=
      chip8_store_registers_spec ctx x true (by omega)
    rw [if_pos rfl, hmod] at hcI
    obtain ⟨d, hd, hdm, hdI, hdV1, hdV2⟩ :=
      chip8_load_registers_spec c x true (by omega)
    refine ⟨c, hc, d, hd, ?_⟩
    rw [hdI, if_pos rfl, hcI]
    rw [Nat.mod_eq_of_lt (by omega)]
    omega
  · obtain ⟨c, hc, hcV, hcI, hcm1, hcm2⟩ :=
      chip8_store_registers_spec ctx x true (by omega)
    have hre : ({ c with I := ctx.I } : Chip8Context).I + x.val < 4096 := by
      dsimp only
      omega
    obtain ⟨d, hd, hdm, hdI, hdV1, hdV2⟩ :=
      chip8_load_registers_spec { c with I := ctx.I } x true hre
    dsimp only at hdm hdI hdV1 hdV2
    refine ⟨c, hc, d, hd, ?_, ?_⟩
    · funext z
      by_cases hz : z.val ≤ x.val
      · have h1 := hdV1 z.val hz
        rw [Fin.eta] at h1
        rw [h1]
        have h2 := hcm1 z.val hz
        rw [h2, Fin.eta]
      · rw [hdV2 z (by omega), hcV]
    · rw [hdI, if_pos rfl, hmod]

/-- Witness for the amended claim C8: the quirk pair on the zero context
advances `I` by 2. -/
theorem store_load_registers_witness :
    ((chip8_store_registers zeroCtx 0 true).bind
        (fun c => chip8_load_registers c 0 true)).map (fun d => d.I) = some 2 := by
  obtain ⟨-, -, -, h4, -⟩ := store_load_registers_amended zeroCtx 0 (by decide)
  obtain ⟨c, hc, d, hd, hI⟩ := h4 (by decide)
  rw [hc]
  show (chip8_load_registers c 0 true).map (fun d => d.I) = some 2
  rw [hd]
  show some d.I = some 2
  rw [hI]
  decide

/-- Claim C10 as stated is false in its draw-sprite bound: with the
origin at the bottom edge (`V[vy] % 32 = 31`), a 15-row sprite draw from
`I = 4090` reads only offsets 0 and 1 before clipping stops the loop, so
every access is in bounds although `I + height - 1 = 4104 > 4095`. -/
theorem helper_bounds_counterexample :
    (chip8_draw_sprite clipCtx 0 1 15).isSome = true
    ∧ 4095 < clipCtx.I + 15 - 1 := by
  exact ⟨by decide, by decide⟩

/-- Claim C10, amended: the four helpers index memory directly with `I`
plus an offset and no 12-bit mask (unlike `chip8_read_byte` and
`chip8_write_byte`, whose mask keeps every access in bounds); their
out-of-bounds branch is unreachable exactly when `I` plus the highest
offset actually accessed is at most 4095 — `I + 2` for `chip8_store_bcd`,
`I + x` for the register block helpers, and, because the sprite byte of
the first clipped row is still read before the clip test,
`I + min (height - 1) (32 - V[vy] % 32)` for a non-empty
`chip8_draw_sprite`, which is smaller than `I + height - 1` when the
sprite is clipped at the bottom edge. -/
theorem helper_bounds_amended (ctx : Chip8Context) (x vx vy : Fin 16)
    (inc : Bool) (height addr : Nat) :
    ((chip8_store_bcd ctx x).isSome = true ↔ ctx.I + 2 < 4096)
  ∧ ((chip8_store_registers ctx x inc).isSome = true ↔ ctx.I + x.val < 4096)
  ∧ ((chip8_load_registers ctx x inc).isSome = true ↔ ctx.I + x.val < 4096)
  ∧ ((chip8_draw_sprite ctx vx vy height).isSome = true
       ↔ (height = 0 ∨ ctx.I + min (height - 1) (32 - ctx.V vy % 32) < 4096))
  ∧ chip8_read_byte ctx addr = ctx.memory (addr &&& 0x0FFF)
  ∧ addr &&& 0x0FFF < 4096 :=
  ⟨chip8_store_bcd_isSome ctx x, chip8_store_registers_isSome ctx x inc,
   chip8_load_registers_isSome ctx x inc, chip8_draw_sprite_isSome ctx vx vy height,
   rfl, Nat.lt_of_le_of_lt Nat.and_le_right (by norm_num)⟩

/-- Full effect of the column loop on one sprite row: a display cell is
XORed exactly when some remaining non-clipped column with a set sprite bit
lands on it, and `VF` becomes 1 exactly when such a column lands on a lit
pixel (each column touches a distinct cell, so collisions are judged
against the incoming display). -/
theorem drawColsLoop_spec (xx yy b : Nat) : ∀ (fuel col : Nat) (ctx : Chip8Context),
    col + fuel = 8 →
    (∀ i,
      ((∃ c, col ≤ c ∧ c < 8 ∧ xx + c < 64 ∧ b &&& (0x80 >>> c) ≠ 0
          ∧ i = yy * 64 + (xx + c)) →
        (drawColsLoop xx yy b fuel col ctx).display i = ctx.display i ^^^ 1)
      ∧ (¬(∃ c, col ≤ c ∧ c < 8 ∧ xx + c < 64 ∧ b &&& (0x80 >>> c) ≠ 0
          ∧ i = yy * 64 + (xx + c)) →
        (drawColsLoop xx yy b fuel col ctx).display i = ctx.display i))
    ∧ ((∃ c, col ≤ c ∧ c < 8 ∧ xx + c < 64 ∧ b &&& (0x80 >>> c) ≠ 0
          ∧ ctx.display (yy * 64 + (xx + c)) ≠ 0) →
        (drawColsLoop xx yy b fuel col ctx).V = Function.update ctx.V 15 1)
    ∧ (¬(∃ c, col ≤ c ∧ c < 8 ∧ xx + c < 64 ∧ b &&& (0x80 >>> c) ≠ 0
          ∧ ctx.display (yy * 64 + (xx + c)) ≠ 0) →
        (drawColsLoop xx yy b fuel col ctx).V = ctx.V)
  | 0, col, ctx, hcol => by
      rw [drawColsLoop]
      refine ⟨fun i => ⟨?_, fun _ => rfl⟩, ?_, fun _ => rfl⟩
      · rintro ⟨c, h1, h2, -, -, -⟩
        exact ((by omega : False)).elim
      · rintro ⟨c, h1, h2, -, -, -⟩
        exact ((by omega : False)).elim
  | fuel + 1, col, ctx, hcol => by
      rw [drawColsLoop]
      by_cases h64 : 64 ≤ xx + col
      · rw [if_pos h64]
        refine ⟨fun i => ⟨?_, fun _ => rfl⟩, ?_, fun _ => rfl⟩
        · rintro ⟨c, h1, -, h3, -, -⟩
          exact ((by omega : False)).elim
        · rintro ⟨c, h1, -, h3, -, -⟩
          exact ((by omega : False)).elim
      · rw [if_neg h64]
        have hcol8 : col < 8 := by omega
        have hxcol : xx + col < 64 := by omega
        obtain ⟨ihd, ihV1, ihV2⟩ := drawColsLoop_spec xx yy b fuel (col + 1)
            (drawPixel xx yy col b ctx) (by omega)
        refine ⟨fun i => ⟨?_, ?_⟩, ?_, ?_⟩
        · rintro ⟨c, hc1, hc2, hc3, hc4, hc5⟩
          subst hc5
          by_cases hci : c = col
          · subst hci
            have hnd : ¬(∃ c2, c + 1 ≤ c2 ∧ c2 < 8 ∧ xx + c2 < 64
                ∧ b &&& (0x80 >>> c2) ≠ 0
                ∧ yy * 64 + (xx + c) = yy * 64 + (xx + c2)) := by
              rintro ⟨c2, hq1, -, hq3, -, hq5⟩
              omega
            have hstep := (ihd _).2 hnd
            rw [hstep, drawPixel_display_eq xx yy c b ctx hc4]
          · have hne : yy * 64 + (xx + c) ≠ yy * 64 + (xx + col) := by omega
            have hstep := (ihd _).1 ⟨c, by omega, hc2, hc3, hc4, rfl⟩
            rw [hstep, drawPixel_display_ne xx yy col b ctx _ hne]
        · intro hnd
          have hnd1 : ¬(∃ c, col + 1 ≤ c ∧ c < 8 ∧ xx + c < 64
              ∧ b &&& (0x80 >>> c) ≠ 0 ∧ i = yy * 64 + (xx + c)) := by
            rintro ⟨c, hq1, hq2, hq3, hq4, hq5⟩
            exact hnd ⟨c, by omega, hq2, hq3, hq4, hq5⟩
          have hstep := (ihd i).2 hnd1
          rw [hstep]
          by_cases hbit : b &&& (0x80 >>> col) ≠ 0
          · by_cases hidx : i = yy * 64 + (xx + col)
            · exact absurd ⟨col, Nat.le_refl col, hcol8, hxcol, hbit, hidx⟩ hnd
            · exact drawPixel_display_ne xx yy col b ctx _ hidx
          · rw [drawPixel_skip xx yy col b ctx hbit]
        · rintro ⟨c, hc1, hc2, hc3, hc4, hc5⟩
          by_cases hci : c = col
          · subst hci
            have hpx := drawPixel_V_hit xx yy c b ctx hc4 hc5
            by_cases hcoll2 : (∃ c2, c + 1 ≤ c2 ∧ c2 < 8 ∧ xx + c2 < 64
                ∧ b &&& (0x80 >>> c2) ≠ 0
                ∧ (drawPixel xx yy c b ctx).display (yy * 64 + (xx + c2)) ≠ 0)
            · rw [ihV1 hcoll2, hpx, Function.update_idem]
            · rw [ihV2 hcoll2, hpx]
          · have hne : yy * 64 + (xx + c) ≠ yy * 64 + (xx + col) := by omega
            have hdisp : (drawPixel xx yy col b ctx).display (yy * 64 + (xx + c)) ≠ 0 := by
              rw [drawPixel_display_ne xx yy col b ctx _ hne]
              exact hc5
            rw [ihV1 ⟨c, by omega, hc2, hc3, hc4, hdisp⟩]
            by_cases hcur : ctx.display (yy * 64 + (xx + col)) ≠ 0
            · by_cases hbit : b &&& (0x80 >>> col) ≠ 0
              · rw [drawPixel_V_hit xx yy col b ctx hbit hcur, Function.update_idem]
              · rw [drawPixel_skip xx yy col b ctx hbit]
            · rw [drawPixel_V_miss xx yy col b ctx hcur]
        · intro hnc
          have hnc1 : ¬(∃ c2, col + 1 ≤ c2 ∧ c2 < 8 ∧ xx + c2 < 64
              ∧ b &&& (0x80 >>> c2) ≠ 0
              ∧ (drawPixel xx yy col b ctx).display (yy * 64 + (xx + c2)) ≠ 0) := by
            rintro ⟨c2, hq1, hq2, hq3, hq4, hq5⟩
            refine hnc ⟨c2, by omega, hq2, hq3, hq4, ?_⟩
            rwa [drawPixel_display_ne xx yy col b ctx _ (by omega)] at hq5
          rw [ihV2 hnc1]
          by_cases hbit : b &&& (0x80 >>> col) ≠ 0
          · by_cases hcur : ctx.display (yy * 64 + (xx + col)) ≠ 0
            · exact absurd ⟨col, Nat.le_refl col, hcol8, hxcol, hbit, hcur⟩ hnc
            · rw [drawPixel_V_miss xx yy col b ctx hcur]
          · rw [drawPixel_skip xx yy col b ctx hbit]

/-- Reading below address 4096 succeeds and yields the stored byte. -/
theorem readMem_lt (ctx : Chip8Context) (a : Nat) (h : a < 4096) :
    readMem ctx a = some (ctx.memory a) := by
  unfold readMem
  rw [if_pos h]

/-- Full effect of the row loop: provided every byte the loop could read
is in bounds, the loop succeeds, leaves memory, `I` and `display_dirty`
unchanged, XORs exactly the display cells hit by a set, non-clipped sprite
bit, and sets `VF` to 1 exactly when such a bit lands on a lit pixel of
the incoming display (rows touch disjoint cells, so collisions are judged
against the incoming display). -/
theorem drawRowsLoop_spec (xx yy : Nat) : ∀ (fuel row : Nat) (ctx : Chip8Context),
    yy + row ≤ 32 → ctx.I + (row + fuel) ≤ 4096 →
    ∃ cF, drawRowsLoop xx yy fuel row ctx = some cF
      ∧ cF.memory = ctx.memory
      ∧ cF.I = ctx.I
      ∧ cF.display_dirty = ctx.display_dirty
      ∧ (∀ i,
          ((∃ r c, row ≤ r ∧ r < row + fuel ∧ yy + r < 32 ∧ c < 8 ∧ xx + c < 64
              ∧ ctx.memory (ctx.I + r) &&& (0x80 >>> c) ≠ 0
              ∧ i = (yy + r) * 64 + (xx + c)) →
            cF.display i = ctx.display i ^^^ 1)
          ∧ (¬(∃ r c, row ≤ r ∧ r < row + fuel ∧ yy + r < 32 ∧ c < 8 ∧ xx + c < 64
              ∧ ctx.memory (ctx.I + r) &&& (0x80 >>> c) ≠ 0
              ∧ i = (yy + r) * 64 + (xx + c)) →
            cF.display i = ctx.display i))
      ∧ ((∃ r c, row ≤ r ∧ r < row + fuel ∧ yy + r < 32 ∧ c < 8 ∧ xx + c < 64
            ∧ ctx.memory (ctx.I + r) &&& (0x80 >>> c) ≠ 0
            ∧ ctx.display ((yy + r) * 64 + (xx + c)) ≠ 0) →
          cF.V = Function.update ctx.V 15 1)
      ∧ (¬(∃ r c, row ≤ r ∧ r < row + fuel ∧ yy + r < 32 ∧ c < 8 ∧ xx + c < 64
            ∧ ctx.memory (ctx.I + r) &&& (0x80 >>> c) ≠ 0
            ∧ ctx.display ((yy + r) * 64 + (xx + c)) ≠ 0) →
          cF.V = ctx.V)
  | 0, row, ctx, hrow, hI => by
      rw [drawRowsLoop]
      refine ⟨ctx, rfl, rfl, rfl, rfl, fun i => ⟨?_, fun _ => rfl⟩, ?_, fun _ => rfl⟩
      · rintro ⟨r, c, hr1, hr2, -, -, -, -, -⟩
        exact ((by omega : False)).elim
      · rintro ⟨r, c, hr1, hr2, -, -, -, -, -⟩
        exact ((by omega : False)).elim
  | fuel + 1, row, ctx, hrow, hI => by
      have hread : ctx.I + row < 4096 := by omega
      rw [drawRowsLoop, readMem_lt ctx (ctx.I + row) hread]
      dsimp only
      by_cases hclip : 32 ≤ yy + row
      · rw [if_pos hclip]
        refine ⟨ctx, rfl, rfl, rfl, rfl, fun i => ⟨?_, fun _ => rfl⟩, ?_, fun _ => rfl⟩
        · rintro ⟨r, c, hr1, -, hr3, -, -, -, -⟩
          exact ((by omega : False)).elim
        · rintro ⟨r, c, hr1, -, hr3, -, -, -, -⟩
          exact ((by omega : False)).elim
      · rw [if_neg hclip]
        obtain ⟨cm, cI, cd⟩ :=
          drawColsLoop_fields xx (yy + row) (ctx.memory (ctx.I + row)) 8 0 ctx
        obtain ⟨colsd, colsV1, colsV2⟩ :=
          drawColsLoop_spec xx (yy + row) (ctx.memory (ctx.I + row)) 8 0 ctx rfl
        obtain ⟨cF, hrun, hFm, hFI, hFd, ihd, ihV1, ihV2⟩ :=
          drawRowsLoop_spec xx yy fuel (row + 1)
            (drawColsLoop xx (yy + row) (ctx.memory (ctx.I + row)) 8 0 ctx)
            (by omega) (by rw [cI]; omega)
        simp only [cm, cI] at ihd ihV1 ihV2
        refine ⟨cF, hrun, hFm.trans cm, hFI.trans cI, hFd.trans cd,
          fun i => ⟨?_, ?_⟩, ?_, ?_⟩
        · rintro ⟨r, c, hr1, hr2, hr3, hcc1, hcc2, hbit, hi⟩
          subst hi
          by_cases hrr : r = row
          · rw [hrr] at hbit ⊢
            have hnd2 : ¬(∃ r2 c2, row + 1 ≤ r2 ∧ r2 < row + 1 + fuel ∧ yy + r2 < 32
                ∧ c2 < 8 ∧ xx + c2 < 64
                ∧ ctx.memory (ctx.I + r2) &&& (0x80 >>> c2) ≠ 0
                ∧ (yy + row) * 64 + (xx + c) = (yy + r2) * 64 + (xx + c2)) := by
              rintro ⟨r2, c2, hq1, -, -, -, hq5, -, hq7⟩
              omega
            rw [(ihd ((yy + row) * 64 + (xx + c))).2 hnd2]
            exact (colsd ((yy + row) * 64 + (xx + c))).1
              ⟨c, Nat.zero_le c, hcc1, hcc2, hbit, rfl⟩
          · have heq := (colsd ((yy + r) * 64 + (xx + c))).2 (by
                rintro ⟨c2, -, -, hq3, -, hq5⟩
                omega)
            rw [(ihd ((yy + r) * 64 + (xx + c))).1
                ⟨r, c, by omega, by omega, hr3, hcc1, hcc2, hbit, rfl⟩, heq]
        · intro hnd
          have hnd2 : ¬(∃ r c, row + 1 ≤ r ∧ r < row + 1 + fuel ∧ yy + r < 32
              ∧ c < 8 ∧ xx + c < 64 ∧ ctx.memory (ctx.I + r) &&& (0x80 >>> c) ≠ 0
              ∧ i = (yy + r) * 64 + (xx + c)) := by
            rintro ⟨r, c, hq1, hq2, hq3, hq4, hq5, hq6, hq7⟩
            exact hnd ⟨r, c, by omega, by omega, hq3, hq4, hq5, hq6, hq7⟩
          rw [(ihd i).2 hnd2]
          refine (colsd i).2 ?_
          rintro ⟨c, -, hb2, hb3, hb4, hb5⟩
          exact hnd ⟨row, c, Nat.le_refl row, by omega, by omega, hb2, hb3, hb4, hb5⟩
        · rintro ⟨r, c, hr1, hr2, hr3, hcc1, hcc2, hbit, hdisp⟩
          by_cases hrr : r = row
          · rw [hrr] at hbit hdisp
            have hcols := colsV1 ⟨c, Nat.zero_le c, hcc1, hcc2, hbit, hdisp⟩
            rcases Classical.em (∃ r2 c2, row + 1 ≤ r2 ∧ r2 < row + 1 + fuel
                ∧ yy + r2 < 32 ∧ c2 < 8 ∧ xx + c2 < 64
                ∧ ctx.memory (ctx.I + r2) &&& (0x80 >>> c2) ≠ 0
                ∧ (drawColsLoop xx (yy + row) (ctx.memory (ctx.I + row)) 8 0 ctx).display
                    ((yy + r2) * 64 + (xx + c2)) ≠ 0) with hlat | hlat
            · rw [ihV1 hlat, hcols, Function.update_idem]
            · rw [ihV2 hlat, hcols]
          · have heq := (colsd ((yy + r) * 64 + (xx + c))).2 (by
                rintro ⟨c2, -, -, hq3, -, hq5⟩
                omega)
            have hd1 : (drawColsLoop xx (yy + row) (ctx.memory (ctx.I + row)) 8 0
                ctx).display ((yy + r) * 64 + (xx + c)) ≠ 0 := by
              rw [heq]; exact hdisp
            rw [ihV1 ⟨r, c, by omega, by omega, hr3, hcc1, hcc2, hbit, hd1⟩]
            rcases Classical.em (∃ c2, 0 ≤ c2 ∧ c2 < 8 ∧ xx + c2 < 64
                ∧ ctx.memory (ctx.I + row) &&& (0x80 >>> c2) ≠ 0
                ∧ ctx.display ((yy + row) * 64 + (xx + c2)) ≠ 0) with hcc | hcc
            · rw [colsV1 hcc, Function.update_idem]
            · rw [colsV2 hcc]
        · intro hnc
          have hnl : ¬(∃ r c, row + 1 ≤ r ∧ r < row + 1 + fuel ∧ yy + r < 32
              ∧ c < 8 ∧ xx + c < 64 ∧ ctx.memory (ctx.I + r) &&& (0x80 >>> c) ≠ 0
              ∧ (drawColsLoop xx (yy + row) (ctx.memory (ctx.I + row)) 8 0 ctx).display
                  ((yy + r) * 64 + (xx + c)) ≠ 0) := by
            rintro ⟨r, c, hq1, hq2, hq3, hq4, hq5, hq6, hq7⟩
            refine hnc ⟨r, c, by omega, by omega, hq3, hq4, hq5, hq6, ?_⟩
            have heq := (colsd ((yy + r) * 64 + (xx + c))).2 (by
                rintro ⟨c2, -, -, hb3, -, hb5⟩
                omega)
            rwa [heq] at hq7
          rw [ihV2 hnl]
          refine colsV2 ?_
          rintro ⟨c, -, hb2, hb3, hb4, hb5⟩
          exact hnc ⟨row, c, Nat.le_refl row, by omega, by omega, hb2, hb3, hb4, hb5⟩

/-- Claim C2: provided every sprite byte lies in memory
(`I + n ≤ 4096`), `chip8_draw_sprite vx vy n` succeeds and draws the
`n`-byte sprite at origin `(V[vx] mod 64, V[vy] mod 32)` — the origin
wraps; rows at `y+r ≥ 32` and columns at `x+c ≥ 64` are clipped, not
drawn; each drawn sprite bit is XORed into the display and no other cell
changes; the final `V` is the original with `V[0xF] = 1` if some drawn
set bit lands on an already-set pixel and `V[0xF] = 0` otherwise; and
`display_dirty` is set while memory and `I` are unchanged. -/
theorem draw_sprite_spec (ctx : Chip8Context) (vx vy : Fin 16) (n : Nat)
    (h : ctx.I + n ≤ 4096) :
    ∃ c, chip8_draw_sprite ctx vx vy n = some c
      ∧ c.display_dirty = true
      ∧ c.memory = ctx.memory
      ∧ c.I = ctx.I
      ∧ (spriteCollides ctx.display ctx.memory ctx.I (ctx.V vx % 64) (ctx.V vy % 32) n →
          c.V = Function.update ctx.V 15 1)
      ∧ (¬spriteCollides ctx.display ctx.memory ctx.I (ctx.V vx % 64) (ctx.V vy % 32) n →
          c.V = Function.update ctx.V 15 0)
      ∧ (∀ i,
          (spriteDrawnAt ctx.memory ctx.I (ctx.V vx % 64) (ctx.V vy % 32) n i →
            c.display i = ctx.display i ^^^ 1)
          ∧ (¬spriteDrawnAt ctx.memory ctx.I (ctx.V vx % 64) (ctx.V vy % 32) n i →
            c.display i = ctx.display i)) := by
  obtain ⟨cF, hrun, hFm, hFI, hFd, ihd, ihV1, ihV2⟩ :=
    drawRowsLoop_spec (ctx.V vx % 64) (ctx.V vy % 32) n 0
      { ctx with V := Function.update ctx.V 15 0 }
      (by omega) (by show ctx.I + (0 + n) ≤ 4096; omega)
  dsimp only at hrun hFm hFI hFd ihd ihV1 ihV2
  unfold chip8_draw_sprite spriteCollides spriteDrawnAt
  dsimp only
  rw [hrun]
  dsimp only
  refine ⟨{ cF with display_dirty := true }, rfl, rfl, hFm, hFI, ?_, ?_, ?_⟩
  · intro hcoll
    obtain ⟨r, c, h1, h2, h3, h4, h5, h6⟩ := hcoll
    have hv := ihV1 ⟨r, c, Nat.zero_le r, by omega, h2, h3, h4, h5, h6⟩
    show cF.V = Function.update ctx.V 15 1
    rw [hv, Function.update_idem]
  · intro hnc
    have hv := ihV2 (by
      rintro ⟨r, c, -, h2, h3, h4, h5, h6⟩
      exact hnc ⟨r, c, by omega, h3, h4, h5, h6⟩)
    show cF.V = Function.update ctx.V 15 0
    rw [hv]
  · intro i
    constructor
    · rintro ⟨r, c, h1, h2, h3, h4, h5, h6⟩
      show cF.display i = ctx.display i ^^^ 1
      exact (ihd i).1 ⟨r, c, Nat.zero_le r, by omega, h2, h3, h4, h5, h6⟩
    · intro hnd
      show cF.display i = ctx.display i
      exact (ihd i).2 (by
        rintro ⟨r, c, -, h2, h3, h4, h5, h6⟩
        exact hnd ⟨r, c, by omega, h3, h4, h5, h6⟩)

/-- Witness for C2: drawing a one-row sprite on the all-zero context
satisfies the in-bounds hypothesis and — the sprite byte being zero,
hence no collision — ends with `display_dirty` set and `V[0xF] = 0`. -/
theorem draw_sprite_witness :
    zeroCtx.I + 1 ≤ 4096
    ∧ ∃ c, chip8_draw_sprite zeroCtx 0 1 1 = some c
        ∧ c.display_dirty = true ∧ c.V = Function.update zeroCtx.V 15 0 := by
  obtain ⟨c, hc, hd, -, -, -, hnc, -⟩ := draw_sprite_spec zeroCtx 0 1 1 (by decide)
  refine ⟨by decide, c, hc, hd, hnc ?_⟩
  intro hcol
  unfold spriteCollides at hcol
  obtain ⟨r, cc, -, -, -, -, hbit, -⟩ := hcol
  exact hbit (by simp [zeroCtx])

/-- Filling in predecessors and reachability does not change a block's
successor list. -/
theorem finalBlock_successors (instrs : List Instruction) (entry a : Nat) :
    (finalBlock instrs entry a).successors = blockSuccessors instrs entry a := rfl

/-- On a nonempty instruction vector, the successor relation holds exactly
between a block-map address and a member of its successor list. -/
theorem succStep_iff (instrs : List Instruction) (entry : Nat)
    (hne : instrs.isEmpty = false) (p q : Nat) :
    succStep instrs entry p q
      ↔ (p ∈ blockDom instrs entry ∧ q ∈ blockSuccessors instrs entry p) := by
  unfold succStep analyze
  rw [if_neg (by simp [hne])]
  dsimp only
  constructor
  · rintro ⟨blk, hblk, hq⟩
    by_cases hd : p ∈ blockDom instrs entry
    · rw [if_pos hd] at hblk
      have hb := Option.some.inj hblk
      rw [← hb, finalBlock_successors] at hq
      exact ⟨hd, hq⟩
    · rw [if_neg hd] at hblk
      exact absurd hblk (by simp)
  · rintro ⟨hd, hq⟩
    refine ⟨finalBlock instrs entry p, by rw [if_pos hd], ?_⟩
    rw [finalBlock_successors]
    exact hq

/-- Soundness of the BFS worklist loop: any predicate holding of every
already-marked and every worklist address, and preserved from an in-domain
address to its successors, holds of everything the loop marks. -/
theorem bfsReach_sound (dom : Finset Nat) (succ : Nat → List Nat) (Q : Nat → Prop)
    (hQ : ∀ a ∈ dom, Q a → ∀ s ∈ succ a, Q s) :
    ∀ (marked : Finset Nat) (wl : List Nat),
      (∀ m ∈ marked, Q m) → (∀ w ∈ wl, Q w) →
      ∀ x ∈ bfsReach dom succ marked wl, Q x := by
  intro marked wl
  induction marked, wl using bfsReach.induct dom succ with
  | case1 marked =>
      intro hm _ x hx
      rw [bfsReach] at hx
      exact hm x hx
  | case2 marked a rest hdom hmem ih =>
      intro hm hw x hx
      rw [bfsReach, if_pos hdom, if_pos hmem] at hx
      exact ih hm (fun w h => hw w (List.mem_cons_of_mem a h)) x hx
  | case3 marked a rest hdom hmem ih =>
      intro hm hw x hx
      rw [bfsReach, if_pos hdom, if_neg hmem] at hx
      have hQa : Q a := hw a (List.mem_cons_self a rest)
      refine ih ?_ ?_ x hx
      · intro m hmm
        rcases Finset.mem_insert.mp hmm with rfl | h2
        · exact hQa
        · exact hm m h2
      · intro w hww
        rcases List.mem_append.mp hww with h2 | h2
        · exact hw w (List.mem_cons_of_mem a h2)
        · exact hQ a hdom hQa w h2
  | case4 marked a rest hdom ih =>
      intro hm hw x hx
      rw [bfsReach, if_neg hdom] at hx
      exact ih hm (fun w h => hw w (List.mem_cons_of_mem a h)) x hx

/-- Progress and closure of the BFS worklist loop: when every successor of
a marked address is marked, queued or outside the domain, the loop keeps
all marked addresses, marks every in-domain worklist address, and its
result is closed under in-domain successors. -/
theorem bfsReach_inv (dom : Finset Nat) (succ : Nat → List Nat) :
    ∀ (marked : Finset Nat) (wl : List Nat),
      (∀ m ∈ marked, ∀ s ∈ succ m, s ∈ marked ∨ s ∈ wl ∨ s ∉ dom) →
      marked ⊆ bfsReach dom succ marked wl
      ∧ (∀ w ∈ wl, w ∈ dom → w ∈ bfsReach dom succ marked wl)
      ∧ (∀ m ∈ bfsReach dom succ marked wl, ∀ s ∈ succ m,
          s ∈ dom → s ∈ bfsReach dom succ marked wl) := by
  intro marked wl
  induction marked, wl using bfsReach.induct dom succ with
  | case1 marked =>
      intro hinv
      rw [bfsReach]
      refine ⟨Finset.Subset.refl _, by simp, ?_⟩
      intro m hm s hs hsd
      rcases hinv m hm s hs with h | h | h
      · exact h
      · exact absurd h (List.not_mem_nil s)
      · exact absurd hsd h
  | case2 marked a rest hdom hmem ih =>
      intro hinv
      rw [bfsReach, if_pos hdom, if_pos hmem]
      have hinv' : ∀ m ∈ marked, ∀ s ∈ succ m, s ∈ marked ∨ s ∈ rest ∨ s ∉ dom := by
        intro m hm s hs
        rcases hinv m hm s hs with h | h | h
        · exact Or.inl h
        · rcases List.mem_cons.mp h with rfl | h2
          · exact Or.inl hmem
          · exact Or.inr (Or.inl h2)
        · exact Or.inr (Or.inr h)
      obtain ⟨h1, h2, h3⟩ := ih hinv'
      refine ⟨h1, ?_, h3⟩
      intro w hw hwd
      rcases List.mem_cons.mp hw with rfl | h4
      · exact h1 hmem
      · exact h2 w h4 hwd
  | case3 marked a rest hdom hmem ih =>
      intro hinv
      rw [bfsReach, if_pos hdom, if_neg hmem]
      have hinv' : ∀ m ∈ insert a marked, ∀ s ∈ succ m,
          s ∈ insert a marked ∨ s ∈ rest ++ succ a ∨ s ∉ dom := by
        intro m hm s hs
        rcases Finset.mem_insert.mp hm with rfl | h2
        · exact Or.inr (Or.inl (List.mem_append.mpr (Or.inr hs)))
        · rcases hinv m h2 s hs with h | h | h
          · exact Or.inl (Finset.mem_insert_of_mem h)
          · rcases List.mem_cons.mp h with rfl | h3
            · exact Or.inl (Finset.mem_insert_self s marked)
            · exact Or.inr (Or.inl (List.mem_append.mpr (Or.inl h3)))
          · exact Or.inr (Or.inr h)
      obtain ⟨h1, h2, h3⟩ := ih hinv'
      have hsub : marked ⊆ bfsReach dom succ (insert a marked) (rest ++ succ a) :=
        fun m hm => h1 (Finset.mem_insert_of_mem hm)
      refine ⟨hsub, ?_, h3⟩
      intro w hw hwd
      rcases List.mem_cons.mp hw with rfl | h4
      · exact h1 (Finset.mem_insert_self w marked)
      · exact h2 w (List.mem_append.mpr (Or.inl h4)) hwd
  | case4 marked a rest hdom ih =>
      intro hinv
      rw [bfsReach, if_neg hdom]
      have hinv' : ∀ m ∈ marked, ∀ s ∈ succ m, s ∈ marked ∨ s ∈ rest ∨ s ∉ dom := by
        intro m hm s hs
        rcases hinv m hm s hs with h | h | h
        · exact Or.inl h
        · rcases List.mem_cons.mp h with rfl | h2
          · exact Or.inr (Or.inr hdom)
          · exact Or.inr (Or.inl h2)
        · exact Or.inr (Or.inr h)
      obtain ⟨h1, h2, h3⟩ := ih hinv'
      refine ⟨h1, ?_, h3⟩
      intro w hw hwd
      rcases List.mem_cons.mp hw with rfl | h4
      · exact absurd hwd hdom
      · exact h2 w h4 hwd

/-- Every address the BFS marks is in the closure of the seed worklist
under the block successor relation. -/
theorem reachSet_sound (instrs : List Instruction) (entry : Nat)
    (hne : instrs.isEmpty = false) :
    ∀ a ∈ reachSet instrs entry, inReachClosure instrs entry a := by
  unfold reachSet
  refine bfsReach_sound _ _ _ ?_ _ _ ?_ ?_
  · intro p hp hQp s hs
    unfold inReachClosure at hQp ⊢
    obtain ⟨w, hw, hpath⟩ := hQp
    exact ⟨w, hw, hpath.tail ((succStep_iff instrs entry hne p s).mpr ⟨hp, hs⟩)⟩
  · intro m hm
    exact absurd hm (Finset.not_mem_empty m)
  · intro w hw
    unfold seedWorklist at hw
    unfold inReachClosure
    rcases List.mem_cons.mp hw with rfl | h2
    · exact ⟨w, Or.inl rfl, Relation.ReflTransGen.refl⟩
    · exact ⟨w, Or.inr ((Finset.mem_sort _).mp h2), Relation.ReflTransGen.refl⟩

/-- Every block-map address in the closure of the seed worklist under the
block successor relation is marked by the BFS. -/
theorem reachSet_complete (instrs : List Instruction) (entry : Nat)
    (hne : instrs.isEmpty = false) (a : Nat)
    (hd : a ∈ blockDom instrs entry) (hcl : inReachClosure instrs entry a) :
    a ∈ reachSet instrs entry := by
  unfold inReachClosure at hcl
  obtain ⟨w, hw, hpath⟩ := hcl
  obtain ⟨-, hseedR, hclosed⟩ :=
    bfsReach_inv (blockDom instrs entry) (blockSuccessors instrs entry)
      ∅ (seedWorklist instrs entry)
      (fun m hm => absurd hm (Finset.not_mem_empty m))
  have hseed : w ∈ seedWorklist instrs entry := by
    unfold seedWorklist
    rcases hw with rfl | hw2
    · exact List.mem_cons_self _ _
    · exact List.mem_cons_of_mem _ ((Finset.mem_sort _).mpr hw2)
  unfold reachSet
  revert hd
  induction hpath with
  | refl =>
      intro hd
      exact hseedR w hseed hd
  | tail h hstep ih =>
      intro hd
      obtain ⟨hbd, hsucc⟩ := (succStep_iff instrs entry hne _ _).mp hstep
      exact hclosed _ (ih hbd) _ hsucc hd

/-- Claim C5: in the `AnalysisResult` returned by `analyze`, a basic
block is marked reachable exactly when the block exists and its start
address lies in the reflexive-transitive closure of the entry point and
the call targets under the block successor relation. -/
theorem analyze_reachable_iff_closure (instrs : List Instruction) (entry a : Nat) :
    ((analyze instrs entry).blocks a).map (fun b => b.is_reachable) = some true
      ↔ (((analyze instrs entry).blocks a).isSome = true
          ∧ inReachClosure instrs entry a) := by
  cases he : instrs.isEmpty with
  | true =>
      unfold analyze
      rw [if_pos he]
      simp
  | false =>
      have hblocks : (analyze instrs entry).blocks a
          = if a ∈ blockDom instrs entry then some (finalBlock instrs entry a)
            else none := by
        unfold analyze
        rw [if_neg (by simp [he])]
      rw [hblocks]
      by_cases hd : a ∈ blockDom instrs entry
      · rw [if_pos hd]
        constructor
        · intro hmap
          refine ⟨rfl, ?_⟩
          have hr : (finalBlock instrs entry a).is_reachable = true := by
            simpa using hmap
          have hmem : a ∈ reachSet instrs entry := of_decide_eq_true hr
          exact reachSet_sound instrs entry he a hmem
        · rintro ⟨-, hcl⟩
          have hmem : a ∈ reachSet instrs entry :=
            reachSet_complete instrs entry he a hd hcl
          have hr : (finalBlock instrs entry a).is_reachable = true :=
            decide_eq_true hmem
          simp [hr]
      · rw [if_neg hd]
        simp

end Chip8Recomp
